import Mathlib

/-!
Verification of the aggregation and ROI-scoring pipeline of `run.py`
(`analyze_property_data`, lines 133-232), shallowly embedded in Lean.
Numbers are modelled as rationals (JSON numbers), Python dicts as
insertion-ordered association lists, and the `ZeroDivisionError` that
Python float division raises is modelled with `Except.error`.
-/

namespace Dubai

/-- The `building` entry of a raw record at JSON fidelity (run.py lines
146-150).  `absent` is a missing, falsy or non-dict building value, which
line 147 skips silently.  `nameMissing` is a building dict without a
`name` key: `building.get('name', {})` substitutes `{}`, `.get('en')`
yields None and the listing is dropped silently.  `nameNotDict` is a
building dict whose `name` value is *present* but null or not a dict:
the `{}` default does not apply to a present null, so line 150 calls
`.get('en')` on a non-dict and raises AttributeError.  `nameEn en` is a
building dict whose `name` is a dict with `en` either present (`some`)
or missing (`none`). -/
inductive BuildingJson where
  | absent : BuildingJson
  | nameMissing : BuildingJson
  | nameNotDict : BuildingJson
  | nameEn : Option String → BuildingJson
deriving DecidableEq

/-- The `building_name` extraction of run.py lines 146-152 at JSON
fidelity: `Except.error ()` models the AttributeError raised on a
present-but-null (or non-dict) `name`; `Except.ok none` is the silent
drop (a missing/falsy/non-dict building, a missing name key, a missing
`en`, or the empty string, all rejected by `continue` or
`if not building_name`); `Except.ok (some s)` is a retained name. -/
def extractBuildingName : BuildingJson → Except Unit (Option String)
  | BuildingJson.absent => Except.ok none
  | BuildingJson.nameMissing => Except.ok none
  | BuildingJson.nameNotDict => Except.error ()
  | BuildingJson.nameEn none => Except.ok none
  | BuildingJson.nameEn (some s) => Except.ok (if s = "" then none else some s)

/-- The `neighborhoods` entry at JSON fidelity (run.py lines 171-177).
`absentOrNotDict`: a missing key defaults to `{}` (then the name lookup
yields `[]`) and a non-dict value fails the isinstance check — both
contribute nothing.  `nameMissing`: a dict without a `name` key, where
`{}.get('en', [])` yields `[]`.  `nameNotDict`: a dict whose `name` is
present but null or not a dict, so `.get('en', [])` at line 175 raises
AttributeError.  `nameEn none`: `name` is a dict whose `en` is missing
(defaults to `[]`) or not a list (skipped by the isinstance check);
`nameEn (some l)`: `en` is the list `l`. -/
inductive NeighborhoodsJson where
  | absentOrNotDict : NeighborhoodsJson
  | nameMissing : NeighborhoodsJson
  | nameNotDict : NeighborhoodsJson
  | nameEn : Option (List String) → NeighborhoodsJson
deriving DecidableEq

/-- The neighborhood-name extraction of run.py lines 171-177 at JSON
fidelity: `Except.error ()` models the AttributeError on a
present-but-null (or non-dict) `name`; every other shape contributes the
listed names (possibly none). -/
def extractNeighborhoodNames : NeighborhoodsJson → Except Unit (List String)
  | NeighborhoodsJson.absentOrNotDict => Except.ok []
  | NeighborhoodsJson.nameMissing => Except.ok []
  | NeighborhoodsJson.nameNotDict => Except.error ()
  | NeighborhoodsJson.nameEn none => Except.ok []
  | NeighborhoodsJson.nameEn (some l) => Except.ok l

/-- Raw listing record as consumed by `analyze_property_data` in run.py,
only the fields the analysis reads; the record is restricted to the
shapes on which the field extraction of lines 146-177 does not raise.
The raising shape — a building or neighborhoods dict whose `name` entry
is present but null or not a dict — is not representable here; it is
modelled at JSON fidelity by `extractBuildingName` applied to
`BuildingJson.nameNotDict` (and `extractNeighborhoodNames` applied to
`NeighborhoodsJson.nameNotDict`) and settled with claim C7.  `building`
is the English building name when the record has a building dict
carrying a `name.en` entry (the empty string models a present-but-empty
name, which the code also rejects via `if not building_name`); `none`
models a missing/falsy/non-dict building value, a building dict without
a name key, or a name dict without `en` — the non-raising drop cases of
`extractBuildingName`.  `geoloc` models the optional `_geoloc` dict
whose `lat` and `lng` entries may each be missing.  `neighborhoods`
models `neighborhoods.name.en`, a list of names, with `none` for the
non-raising shapes of `extractNeighborhoodNames` that contribute
nothing. -/
structure RawListing where
  building : Option String
  bedrooms : Option ℤ
  bathrooms : Option ℤ
  size : Option ℤ
  price : Option ℚ
  geoloc : Option (Option ℚ × Option ℚ)
  neighborhoods : Option (List String)
deriving DecidableEq

/-- Grouping key `(bedrooms, bathrooms, size_range)` of run.py line 161. -/
abbrev Key := ℤ × ℤ × ℤ

/-- Per-group accumulator (run.py lines 137-142).  The Python value is a
dict holding rent prices, sale prices, geolocation points and a *set* of
neighborhood names; here the set is modelled by the list of observed names
(order and multiplicity are irrelevant because the output sorts the
distinct names). -/
structure GroupData where
  rent : List ℚ
  sale : List ℚ
  geoloc_points : List (ℚ × ℚ)
  neighborhoods : List String
deriving DecidableEq

/-- The defaultdict initial value of run.py lines 137-142. -/
def emptyGD : GroupData := ⟨[], [], [], []⟩

/-- Field extraction and required-field filter of `analyze_property_data`
(run.py lines 146-161): the building name, grouping key and price of a
retained listing, `none` for a dropped one.  The `none` path covers
exactly the *non-raising* drop cases (recall that the AttributeError on
a present-but-null `building.name` is outside `RawListing` and modelled
by `extractBuildingName`).  The size bucket is `(size // 200) * 200`
with Python floor division (`Int.fdiv`). -/
def normKey (item : RawListing) : Option (String × Key × ℚ) :=
  match item.building with
  | none => none
  | some name =>
    if name = "" then none
    else
      match item.bedrooms, item.bathrooms, item.size, item.price with
      | some bed, some bath, some sz, some pr =>
          some (name, (bed, bath, Int.fdiv sz 200 * 200), pr)
      | _, _, _, _ => none

/-- One retained listing's contribution to its group (run.py lines
163-182): append the geolocation pair when both coordinates are present,
extend the neighborhood observations, and append the price to the rent or
the sale side according to `isRent` (the code's `item in rent_data`
membership test). -/
def addObs (item : RawListing) (isRent : Bool) (pr : ℚ) (gd : GroupData) : GroupData :=
  let gd1 :=
    match item.geoloc with
    | some (some la, some ln) => { gd with geoloc_points := gd.geoloc_points ++ [(la, ln)] }
    | _ => gd
  let gd2 :=
    match item.neighborhoods with
    | some names => { gd1 with neighborhoods := gd1.neighborhoods ++ names }
    | none => gd1
  if isRent then { gd2 with rent := gd2.rent ++ [pr] }
  else { gd2 with sale := gd2.sale ++ [pr] }

/-- Lookup in an insertion-ordered association list (a Python dict). -/
def lookupA [DecidableEq α] (k : α) : List (α × β) → Option β
  | [] => none
  | (k1, v) :: rest => if k = k1 then some v else lookupA k rest

/-- Update in an insertion-ordered association list: apply `f` to the
entry for `k`, feeding it `d` when the key is new; a new key is appended
at the end, matching Python dict insertion order (defaultdict access). -/
def updateAssoc [DecidableEq α] (k : α) (f : β → β) (d : β) : List (α × β) → List (α × β)
  | [] => [(k, f d)]
  | (k1, v) :: rest => if k = k1 then (k1, f v) :: rest else (k1, v) :: updateAssoc k f d rest

/-- The nested accumulator `building_data`: building name, then key, both
levels in insertion order (the Python nested defaultdict). -/
abbrev BuildingData := List (String × List (Key × GroupData))

/-- Process one record of `rent_data + sale_data` (run.py lines 145-182).
`rentData` is the full rent stream: the code classifies a record as rent
by the membership test `item in rent_data` (value equality). -/
def processItem (rentData : List RawListing) (bd : BuildingData) (item : RawListing) :
    BuildingData :=
  match normKey item with
  | none => bd
  | some (name, key, pr) =>
      updateAssoc name
        (fun inner => updateAssoc key (addObs item (decide (item ∈ rentData)) pr) emptyGD inner)
        [] bd

/-- The fully built accumulator for the two input streams. -/
def accum (rentData saleData : List RawListing) : BuildingData :=
  (rentData ++ saleData).foldl (processItem rentData) []

/-- Iteration order of the nested accumulator (run.py lines 187-188):
buildings in insertion order and, for each building, its keys in insertion
order. -/
def flattenBD (bd : BuildingData) : List (String × Key × GroupData) :=
  (bd.map (fun p => p.2.map (fun q => (p.1, q.1, q.2)))).flatten

/-- Neighborhood output (run.py line 208): the sorted list of the distinct
observed names, modelling `sorted(list(set_of_names))`. -/
def sortedNeighborhoods (names : List String) : List String :=
  List.insertionSort (fun a b => a ≤ b) names.dedup

/-- Display string for a size bucket (run.py line 214). -/
def sizeRangeStr (bucket : ℤ) : String :=
  toString bucket ++ "-" ++ toString (bucket + 199) ++ " sqft"

/-- Scored record for one qualifying group (run.py lines 210-224). -/
structure ScoredGroup where
  building : String
  bedrooms : ℤ
  bathrooms : ℤ
  size_range : String
  avg_rent : ℚ
  avg_sale : ℚ
  roi : ℚ
  rent_samples : ℕ
  sale_samples : ℕ
  weight : ℕ
  weighted_roi : ℚ
  geolocation : Option (ℚ × ℚ)
  neighborhoods : List String
deriving DecidableEq

/-- The scored record built from one group accumulator (run.py lines
190-224): means of the two price lists, roi, sample counts, weight,
weighted roi, component-wise mean geolocation and the sorted distinct
neighborhood names. -/
def mkScored (b : String) (k : Key) (d : GroupData) : ScoredGroup :=
  let avg_rent : ℚ := d.rent.sum / (d.rent.length : ℚ)
  let avg_sale : ℚ := d.sale.sum / (d.sale.length : ℚ)
  let roi : ℚ := avg_rent / avg_sale * 100
  let geoloc : Option (ℚ × ℚ) :=
    match d.geoloc_points with
    | [] => none
    | _ => some ((d.geoloc_points.map Prod.fst).sum / (d.geoloc_points.length : ℚ),
                 (d.geoloc_points.map Prod.snd).sum / (d.geoloc_points.length : ℚ))
  { building := b
    bedrooms := k.1
    bathrooms := k.2.1
    size_range := sizeRangeStr k.2.2
    avg_rent := avg_rent
    avg_sale := avg_sale
    roi := roi
    rent_samples := d.rent.length
    sale_samples := d.sale.length
    weight := min d.rent.length d.sale.length
    weighted_roi := roi * (min d.rent.length d.sale.length : ℚ)
    geolocation := geoloc
    neighborhoods := sortedNeighborhoods d.neighborhoods }

/-- The guard of run.py line 189: both price lists non-empty. -/
def qualifiesB (d : GroupData) : Bool := decide (d.rent ≠ []) && decide (d.sale ≠ [])

/-- Scores one accumulator entry.  Python computes
`roi = (avg_rent / avg_sale) * 100` with float division, which raises
`ZeroDivisionError` when `avg_sale` is zero: that crash is modelled as
`Except.error ()`. -/
def scoreEntry (e : String × Key × GroupData) : Except Unit (List ScoredGroup) :=
  let d := e.2.2
  if qualifiesB d then
    if d.sale.sum / (d.sale.length : ℚ) = 0 then Except.error ()
    else Except.ok [mkScored e.1 e.2.1 d]
  else Except.ok []

/-- The scoring loop of run.py lines 187-224 over the flattened
accumulator. -/
def scoreAll : List (String × Key × GroupData) → Except Unit (List ScoredGroup)
  | [] => Except.ok []
  | e :: rest => do
      let gs ← scoreEntry e
      let rest1 ← scoreAll rest
      pure (gs ++ rest1)

/-- Stable insertion into a weighted_roi-descending list: `x` goes before
the first element it is not below, so among equal scores the earlier
element stays first (Python `list.sort` with `reverse=True` is stable). -/
def insertByW (x : ScoredGroup) : List ScoredGroup → List ScoredGroup
  | [] => [x]
  | y :: ys => if y.weighted_roi ≤ x.weighted_roi then x :: y :: ys else y :: insertByW x ys

/-- `results.sort(key=lambda x: x[weighted_roi], reverse=True)`
(run.py line 227): a stable descending sort. -/
def sortByW (l : List ScoredGroup) : List ScoredGroup := l.foldr insertByW []

/-- `analyze_property_data` (run.py lines 133-232) as a function of the
two in-memory streams: build the nested accumulator over
`rent_data + sale_data`, score every group having both rent and sale
samples, and sort by weighted_roi descending.  `Except.error ()` models
the `ZeroDivisionError` crash on a zero mean sale price. -/
def analyze (rentData saleData : List RawListing) : Except Unit (List ScoredGroup) := do
  let pre ← scoreAll (flattenBD (accum rentData saleData))
  pure (sortByW pre)

/-! ## Specification-side helper definitions -/

/-- Lookup of one group accumulator in the nested map. -/
def lookupGroup (bd : BuildingData) (b : String) (k : Key) : Option GroupData :=
  (lookupA b bd).bind (lookupA k)

/-- The geolocation pair extracted from a listing, when both coordinates
are present (run.py lines 164-169). -/
def geoOf (item : RawListing) : Option (ℚ × ℚ) :=
  match item.geoloc with
  | some (some la, some ln) => some (la, ln)
  | _ => none

/-- The neighborhood names contributed by a listing (run.py lines
171-177); a missing entry contributes nothing. -/
def neighOf (item : RawListing) : List String := item.neighborhoods.getD []

/-- The sequence of contributions a run of the aggregator feeds into the
accumulator of group `(b, k)`: the retained listings of that group in
input order, each with the code's rent-membership classification and its
price. -/
def contribs (rentData items : List RawListing) (b : String) (k : Key) :
    List (RawListing × Bool × ℚ) :=
  items.filterMap (fun it =>
    match normKey it with
    | some (b1, k1, pr) =>
        if b1 = b ∧ k1 = k then some (it, decide (it ∈ rentData), pr) else none
    | none => none)

/-- Replay a contribution sequence into a group accumulator. -/
def applyContribs (cs : List (RawListing × Bool × ℚ)) (gd : GroupData) : GroupData :=
  cs.foldl (fun g c => addObs c.1 c.2.1 c.2.2 g) gd

/-- Whether a raw listing survives the required-field filter. -/
def wellFormed (item : RawListing) : Bool := (normKey item).isSome

/-- Prices of the listings of group `(b, k)` that the code classifies as
rent: those equal to some element of the rent stream. -/
def rentSide (rentData : List RawListing) (b : String) (k : Key)
    (items : List RawListing) : List ℚ :=
  items.filterMap (fun it =>
    match normKey it with
    | some (b1, k1, pr) => if b1 = b ∧ k1 = k ∧ it ∈ rentData then some pr else none
    | none => none)

/-- Prices of the listings of group `(b, k)` that the code classifies as
sale: those not equal to any element of the rent stream. -/
def saleSide (rentData : List RawListing) (b : String) (k : Key)
    (items : List RawListing) : List ℚ :=
  items.filterMap (fun it =>
    match normKey it with
    | some (b1, k1, pr) => if b1 = b ∧ k1 = k ∧ it ∉ rentData then some pr else none
    | none => none)

/-- Prices of the listings of a single stream that fall in group
`(b, k)`. -/
def keyPrices (b : String) (k : Key) (items : List RawListing) : List ℚ :=
  items.filterMap (fun it =>
    match normKey it with
    | some (b1, k1, pr) => if b1 = b ∧ k1 = k then some pr else none
    | none => none)

/-! ## Association-list lemmas -/

theorem lookupA_updateAssoc_self [DecidableEq α] (k : α) (f : β → β) (d : β)
    (l : List (α × β)) :
    lookupA k (updateAssoc k f d l) = some (f ((lookupA k l).getD d)) := by
  induction l with
  | nil => simp [lookupA, updateAssoc]
  | cons p rest ih =>
    obtain ⟨k1, v⟩ := p
    by_cases h : k = k1
    · subst h
      simp [lookupA, updateAssoc]
    · simp [lookupA, updateAssoc, h, ih]

theorem lookupA_updateAssoc_ne [DecidableEq α] {k k2 : α} (h : k2 ≠ k) (f : β → β) (d : β)
    (l : List (α × β)) :
    lookupA k2 (updateAssoc k f d l) = lookupA k2 l := by
  induction l with
  | nil => simp [lookupA, updateAssoc, h]
  | cons p rest ih =>
    obtain ⟨k1, v⟩ := p
    by_cases h1 : k = k1
    · subst h1
      simp [lookupA, updateAssoc, h]
    · by_cases h2 : k2 = k1
      · subst h2
        simp [lookupA, updateAssoc, h1]
      · simp [lookupA, updateAssoc, h1, h2, ih]

theorem lookupA_mem [DecidableEq α] {k : α} {v : β} {l : List (α × β)}
    (h : lookupA k l = some v) : (k, v) ∈ l := by
  induction l with
  | nil => simp [lookupA] at h
  | cons p rest ih =>
    obtain ⟨k1, v1⟩ := p
    by_cases h1 : k = k1
    · subst h1
      simp [lookupA] at h
      simp [h]
    · simp [lookupA, h1] at h
      exact List.mem_cons_of_mem _ (ih h)

theorem mem_lookupA [DecidableEq α] {k : α} {v : β} {l : List (α × β)}
    (hm : (k, v) ∈ l) (hn : (l.map Prod.fst).Nodup) : lookupA k l = some v := by
  induction l with
  | nil => simp at hm
  | cons p rest ih =>
    obtain ⟨k1, v1⟩ := p
    simp only [List.map_cons, List.nodup_cons] at hn
    rcases List.mem_cons.mp hm with h | h
    · obtain ⟨h1, h2⟩ := Prod.mk.injEq .. ▸ h
      cases h
      simp [lookupA]
    · have hne : k ≠ k1 := by
        rintro rfl
        exact hn.1 (List.mem_map.mpr ⟨(k, v), h, rfl⟩)
      simp [lookupA, hne]
      exact ih h hn.2

/-! ## Accumulator characterization -/

theorem addObs_rent (item : RawListing) (m : Bool) (pr : ℚ) (gd : GroupData) :
    (addObs item m pr gd).rent = gd.rent ++ (if m then [pr] else []) := by
  unfold addObs
  cases hg : item.geoloc with
  | none => cases item.neighborhoods <;> cases m <;> simp
  | some g =>
    obtain ⟨la, ln⟩ := g
    cases la <;> cases ln <;> cases item.neighborhoods <;> cases m <;> simp

theorem addObs_sale (item : RawListing) (m : Bool) (pr : ℚ) (gd : GroupData) :
    (addObs item m pr gd).sale = gd.sale ++ (if m then [] else [pr]) := by
  unfold addObs
  cases hg : item.geoloc with
  | none => cases item.neighborhoods <;> cases m <;> simp
  | some g =>
    obtain ⟨la, ln⟩ := g
    cases la <;> cases ln <;> cases item.neighborhoods <;> cases m <;> simp

theorem addObs_geo (item : RawListing) (m : Bool) (pr : ℚ) (gd : GroupData) :
    (addObs item m pr gd).geoloc_points = gd.geoloc_points ++ (geoOf item).toList := by
  unfold addObs geoOf
  cases hg : item.geoloc with
  | none => cases item.neighborhoods <;> cases m <;> simp
  | some g =>
    obtain ⟨la, ln⟩ := g
    cases la <;> cases ln <;> cases item.neighborhoods <;> cases m <;> simp

theorem addObs_neigh (item : RawListing) (m : Bool) (pr : ℚ) (gd : GroupData) :
    (addObs item m pr gd).neighborhoods = gd.neighborhoods ++ neighOf item := by
  unfold addObs neighOf
  cases hg : item.geoloc with
  | none => cases item.neighborhoods <;> cases m <;> simp
  | some g =>
    obtain ⟨la, ln⟩ := g
    cases la <;> cases ln <;> cases item.neighborhoods <;> cases m <;> simp

theorem applyContribs_rent (cs : List (RawListing × Bool × ℚ)) :
    ∀ gd : GroupData, (applyContribs cs gd).rent
      = gd.rent ++ cs.filterMap (fun c => if c.2.1 then some c.2.2 else none) := by
  induction cs with
  | nil => intro gd; simp [applyContribs]
  | cons c rest ih =>
    intro gd
    obtain ⟨it, m, pr⟩ := c
    have h1 : applyContribs ((it, m, pr) :: rest) gd = applyContribs rest (addObs it m pr gd) := rfl
    rw [h1, ih, addObs_rent]
    cases m <;> simp

theorem applyContribs_sale (cs : List (RawListing × Bool × ℚ)) :
    ∀ gd : GroupData, (applyContribs cs gd).sale
      = gd.sale ++ cs.filterMap (fun c => if c.2.1 then none else some c.2.2) := by
  induction cs with
  | nil => intro gd; simp [applyContribs]
  | cons c rest ih =>
    intro gd
    obtain ⟨it, m, pr⟩ := c
    have h1 : applyContribs ((it, m, pr) :: rest) gd = applyContribs rest (addObs it m pr gd) := rfl
    rw [h1, ih, addObs_sale]
    cases m <;> simp

theorem applyContribs_geo (cs : List (RawListing × Bool × ℚ)) :
    ∀ gd : GroupData, (applyContribs cs gd).geoloc_points
      = gd.geoloc_points ++ cs.filterMap (fun c => geoOf c.1) := by
  induction cs with
  | nil => intro gd; simp [applyContribs]
  | cons c rest ih =>
    intro gd
    obtain ⟨it, m, pr⟩ := c
    have h1 : applyContribs ((it, m, pr) :: rest) gd = applyContribs rest (addObs it m pr gd) := rfl
    rw [h1, ih, addObs_geo]
    cases hgeo : geoOf it <;> simp [hgeo]

theorem applyContribs_neigh (cs : List (RawListing × Bool × ℚ)) :
    ∀ gd : GroupData, (applyContribs cs gd).neighborhoods
      = gd.neighborhoods ++ (cs.map (fun c => neighOf c.1)).flatten := by
  induction cs with
  | nil => intro gd; simp [applyContribs]
  | cons c rest ih =>
    intro gd
    obtain ⟨it, m, pr⟩ := c
    have h1 : applyContribs ((it, m, pr) :: rest) gd = applyContribs rest (addObs it m pr gd) := rfl
    rw [h1, ih, addObs_neigh]
    simp

theorem lookupGroup_processItem (rd : List RawListing) (bd : BuildingData)
    (it : RawListing) (b : String) (k : Key) :
    lookupGroup (processItem rd bd it) b k =
      match normKey it with
      | some (b1, k1, pr) =>
          if b1 = b ∧ k1 = k then
            some (addObs it (decide (it ∈ rd)) pr ((lookupGroup bd b k).getD emptyGD))
          else lookupGroup bd b k
      | none => lookupGroup bd b k := by
  cases hn : normKey it with
  | none => simp [processItem, hn]
  | some t =>
    obtain ⟨b1, k1, pr⟩ := t
    by_cases hb : b1 = b
    · subst hb
      by_cases hk : k1 = k
      · subst hk
        simp only [processItem, hn, lookupGroup]
        rw [lookupA_updateAssoc_self]
        simp only [Option.some_bind]
        rw [lookupA_updateAssoc_self]
        cases hout : lookupA b1 bd with
        | none => simp [lookupA]
        | some inner => simp
      · simp only [processItem, hn, lookupGroup]
        rw [lookupA_updateAssoc_self]
        simp only [Option.some_bind]
        rw [lookupA_updateAssoc_ne (fun h => hk h.symm)]
        cases hout : lookupA b1 bd with
        | none => simp [lookupA, hk]
        | some inner => simp [hk]
    · simp only [processItem, hn, lookupGroup]
      rw [lookupA_updateAssoc_ne (fun h => hb h.symm)]
      simp [hb]

theorem lookupGroup_foldl (rd : List RawListing) (b : String) (k : Key) :
    ∀ (items : List RawListing) (bd : BuildingData),
    lookupGroup (items.foldl (processItem rd) bd) b k =
      if lookupGroup bd b k = none ∧ contribs rd items b k = [] then none
      else some (applyContribs (contribs rd items b k) ((lookupGroup bd b k).getD emptyGD)) := by
  intro items
  induction items with
  | nil =>
    intro bd
    cases h : lookupGroup bd b k <;> simp [contribs, applyContribs, h]
  | cons it rest ih =>
    intro bd
    have hstep := lookupGroup_processItem rd bd it b k
    have hfold : (it :: rest).foldl (processItem rd) bd
        = rest.foldl (processItem rd) (processItem rd bd it) := rfl
    rw [hfold, ih (processItem rd bd it)]
    cases hn : normKey it with
    | none =>
      rw [hn] at hstep
      simp only [hstep]
      have hc : contribs rd (it :: rest) b k = contribs rd rest b k := by
        simp [contribs, hn]
      rw [hc]
    | some t =>
      obtain ⟨b1, k1, pr⟩ := t
      rw [hn] at hstep
      by_cases hbk : b1 = b ∧ k1 = k
      · have hc : contribs rd (it :: rest) b k
            = (it, decide (it ∈ rd), pr) :: contribs rd rest b k := by
          simp [contribs, hn, hbk]
        rw [hc]
        simp only [hstep, if_pos hbk]
        have h2 : applyContribs ((it, decide (it ∈ rd), pr) :: contribs rd rest b k)
            ((lookupGroup bd b k).getD emptyGD)
            = applyContribs (contribs rd rest b k)
              (addObs it (decide (it ∈ rd)) pr ((lookupGroup bd b k).getD emptyGD)) := rfl
        rw [h2]
        simp
      · have hc : contribs rd (it :: rest) b k = contribs rd rest b k := by
          simp [contribs, hn, hbk]
        rw [hc]
        simp only [hstep, if_neg hbk]

theorem lookupGroup_accum (rd sd : List RawListing) (b : String) (k : Key) :
    lookupGroup (accum rd sd) b k =
      if contribs rd (rd ++ sd) b k = [] then none
      else some (applyContribs (contribs rd (rd ++ sd) b k) emptyGD) := by
  have h := lookupGroup_foldl rd b k (rd ++ sd) []
  have h0 : lookupGroup [] b k = none := by simp [lookupGroup, lookupA]
  rw [h0] at h
  simpa [accum] using h

/-! ## Shape invariants of the nested accumulator -/

theorem updateAssoc_map_fst [DecidableEq α] (k : α) (f : β → β) (d : β) (l : List (α × β)) :
    (updateAssoc k f d l).map Prod.fst =
      if k ∈ l.map Prod.fst then l.map Prod.fst else l.map Prod.fst ++ [k] := by
  induction l with
  | nil => simp [updateAssoc]
  | cons p rest ih =>
    obtain ⟨k1, v⟩ := p
    by_cases h : k = k1
    · subst h
      simp [updateAssoc]
    · by_cases hm : k ∈ rest.map Prod.fst <;>
        simp [updateAssoc, h, ih, hm]

theorem mem_updateAssoc [DecidableEq α] {q : α × β} {k : α} {f : β → β} {d : β}
    {l : List (α × β)} (h : q ∈ updateAssoc k f d l) :
    q ∈ l ∨ ∃ v, q.2 = f v ∧ (v = d ∨ (q.1, v) ∈ l) := by
  induction l with
  | nil =>
    simp [updateAssoc] at h
    subst h
    exact Or.inr ⟨d, rfl, Or.inl rfl⟩
  | cons p rest ih =>
    obtain ⟨k1, v1⟩ := p
    by_cases hk : k = k1
    · subst hk
      simp only [updateAssoc, if_pos rfl] at h
      rcases List.mem_cons.mp h with h1 | h1
      · subst h1
        exact Or.inr ⟨v1, rfl, Or.inr (List.mem_cons_self _ _)⟩
      · exact Or.inl (List.mem_cons_of_mem _ h1)
    · simp only [updateAssoc, if_neg hk] at h
      rcases List.mem_cons.mp h with h1 | h1
      · subst h1
        exact Or.inl (List.mem_cons_self _ _)
      · rcases ih h1 with h2 | ⟨v, hv, hcase⟩
        · exact Or.inl (List.mem_cons_of_mem _ h2)
        · exact Or.inr ⟨v, hv, hcase.imp id (List.mem_cons_of_mem _)⟩

/-- Well-shapedness of the nested accumulator: dict keys are distinct at
both levels. -/
def WFbd (bd : BuildingData) : Prop :=
  (bd.map Prod.fst).Nodup ∧ ∀ p ∈ bd, (p.2.map Prod.fst).Nodup

theorem WFbd_processItem (rd : List RawListing) (bd : BuildingData) (it : RawListing)
    (h : WFbd bd) : WFbd (processItem rd bd it) := by
  cases hn : normKey it with
  | none => simpa [processItem, hn] using h
  | some t =>
    obtain ⟨name, key, pr⟩ := t
    simp only [processItem, hn]
    constructor
    · rw [updateAssoc_map_fst]
      by_cases hm : name ∈ bd.map Prod.fst
      · simpa [hm] using h.1
      · simp [hm, List.nodup_append, h.1]
    · intro p hp
      rcases mem_updateAssoc hp with h1 | ⟨v, hv, hcase⟩
      · exact h.2 p h1
      · rw [hv, updateAssoc_map_fst]
        have hvnodup : (v.map Prod.fst).Nodup := by
          rcases hcase with rfl | hmem
          · simp
          · exact h.2 (p.1, v) hmem
        by_cases hm : key ∈ v.map Prod.fst
        · simpa [hm] using hvnodup
        · simp [hm, List.nodup_append, hvnodup]

theorem WFbd_foldl (rd : List RawListing) :
    ∀ (items : List RawListing) (bd : BuildingData), WFbd bd →
      WFbd (items.foldl (processItem rd) bd) := by
  intro items
  induction items with
  | nil => intro bd h; exact h
  | cons it rest ih =>
    intro bd h
    exact ih (processItem rd bd it) (WFbd_processItem rd bd it h)

theorem WFbd_accum (rd sd : List RawListing) : WFbd (accum rd sd) := by
  refine WFbd_foldl rd (rd ++ sd) [] ?_
  constructor
  · simp
  · intro p hp
    simp at hp

theorem mem_flattenBD {bd : BuildingData} {b : String} {k : Key} {gd : GroupData} :
    (b, k, gd) ∈ flattenBD bd ↔ ∃ inner, (b, inner) ∈ bd ∧ (k, gd) ∈ inner := by
  simp only [flattenBD, List.mem_flatten, List.mem_map]
  constructor
  · rintro ⟨block, ⟨⟨b1, inner⟩, hp, rfl⟩, hmem⟩
    rcases List.mem_map.mp hmem with ⟨⟨k1, gd1⟩, hq, heq⟩
    simp only [Prod.mk.injEq] at heq
    obtain ⟨rfl, rfl, rfl⟩ := heq
    exact ⟨inner, hp, hq⟩
  · rintro ⟨inner, hinner, hkg⟩
    refine ⟨inner.map (fun q => (b, q.1, q.2)), ⟨(b, inner), hinner, rfl⟩, ?_⟩
    exact List.mem_map.mpr ⟨(k, gd), hkg, rfl⟩

theorem lookupGroup_flattenBD {bd : BuildingData} (h : WFbd bd) {b : String} {k : Key}
    {gd : GroupData} :
    (b, k, gd) ∈ flattenBD bd ↔ lookupGroup bd b k = some gd := by
  constructor
  · intro hmem
    rcases mem_flattenBD.mp hmem with ⟨inner, hinner, hkg⟩
    have h1 : lookupA b bd = some inner := mem_lookupA hinner h.1
    have h2 : lookupA k inner = some gd := mem_lookupA hkg (h.2 (b, inner) hinner)
    simp [lookupGroup, h1, h2]
  · intro hl
    cases hout : lookupA b bd with
    | none => simp [lookupGroup, hout] at hl
    | some inner =>
      rw [lookupGroup, hout, Option.some_bind] at hl
      exact mem_flattenBD.mpr ⟨inner, lookupA_mem hout, lookupA_mem hl⟩

/-! ## Scoring loop -/

theorem scoreAll_eq : ∀ l : List (String × Key × GroupData),
    scoreAll l =
      if ∀ e ∈ l, qualifiesB e.2.2 → ¬ (e.2.2.sale.sum / (e.2.2.sale.length : ℚ) = 0)
      then Except.ok ((l.filter (fun e => qualifiesB e.2.2)).map
        (fun e => mkScored e.1 e.2.1 e.2.2))
      else Except.error () := by
  intro l
  induction l with
  | nil => simp [scoreAll]
  | cons e rest ih =>
    by_cases hq : qualifiesB e.2.2
    · by_cases hz : e.2.2.sale.sum / (e.2.2.sale.length : ℚ) = 0
      · have he : scoreEntry e = Except.error () := by
          simp [scoreEntry, hq, hz]
        have hcond : ¬ (∀ x ∈ e :: rest, qualifiesB x.2.2
            → ¬ (x.2.2.sale.sum / (x.2.2.sale.length : ℚ) = 0)) := by
          intro hall
          exact hall e (List.mem_cons_self _ _) hq hz
        simp only [scoreAll, he, if_neg hcond]
        rfl
      · have he : scoreEntry e = Except.ok [mkScored e.1 e.2.1 e.2.2] := by
          simp [scoreEntry, hq, hz]
        by_cases hrest : ∀ x ∈ rest, qualifiesB x.2.2
            → ¬ (x.2.2.sale.sum / (x.2.2.sale.length : ℚ) = 0)
        · have hcond : ∀ x ∈ e :: rest, qualifiesB x.2.2
              → ¬ (x.2.2.sale.sum / (x.2.2.sale.length : ℚ) = 0) := by
            intro x hx
            rcases List.mem_cons.mp hx with rfl | hx1
            · intro _; exact hz
            · exact hrest x hx1
          rw [if_pos hrest] at ih
          simp only [scoreAll, he, ih, if_pos hcond]
          simp [hq]
          rfl
        · have hcond : ¬ (∀ x ∈ e :: rest, qualifiesB x.2.2
              → ¬ (x.2.2.sale.sum / (x.2.2.sale.length : ℚ) = 0)) := by
            intro hall
            exact hrest (fun x hx => hall x (List.mem_cons_of_mem _ hx))
          rw [if_neg hrest] at ih
          simp only [scoreAll, he, ih, if_neg hcond]
          rfl
    · have he : scoreEntry e = Except.ok [] := by
        simp [scoreEntry, hq]
      by_cases hrest : ∀ x ∈ rest, qualifiesB x.2.2
          → ¬ (x.2.2.sale.sum / (x.2.2.sale.length : ℚ) = 0)
      · have hcond : ∀ x ∈ e :: rest, qualifiesB x.2.2
            → ¬ (x.2.2.sale.sum / (x.2.2.sale.length : ℚ) = 0) := by
          intro x hx
          rcases List.mem_cons.mp hx with rfl | hx1
          · intro hqx; exact absurd hqx hq
          · exact hrest x hx1
        rw [if_pos hrest] at ih
        simp only [scoreAll, he, ih, if_pos hcond]
        simp [hq]
        rfl
      · have hcond : ¬ (∀ x ∈ e :: rest, qualifiesB x.2.2
            → ¬ (x.2.2.sale.sum / (x.2.2.sale.length : ℚ) = 0)) := by
          intro hall
          exact hrest (fun x hx => hall x (List.mem_cons_of_mem _ hx))
        rw [if_neg hrest] at ih
        simp only [scoreAll, he, ih, if_neg hcond]
        rfl

/-! ## Sorting lemmas -/

theorem insertByW_perm (x : ScoredGroup) : ∀ l, List.Perm (insertByW x l) (x :: l) := by
  intro l
  induction l with
  | nil => simp [insertByW]
  | cons y ys ih =>
    by_cases h : y.weighted_roi ≤ x.weighted_roi
    · simp [insertByW, h]
    · simp only [insertByW, if_neg h]
      exact (ih.cons y).trans (List.Perm.swap x y ys)

theorem sortByW_perm : ∀ l, List.Perm (sortByW l) l := by
  intro l
  induction l with
  | nil => simp [sortByW]
  | cons x xs ih =>
    have h1 : sortByW (x :: xs) = insertByW x (sortByW xs) := rfl
    rw [h1]
    exact (insertByW_perm x (sortByW xs)).trans (ih.cons x)

theorem insertByW_pairwise {x : ScoredGroup} :
    ∀ {l}, List.Pairwise (fun g1 g2 => g2.weighted_roi ≤ g1.weighted_roi) l →
      List.Pairwise (fun g1 g2 => g2.weighted_roi ≤ g1.weighted_roi) (insertByW x l) := by
  intro l
  induction l with
  | nil => intro _; simp [insertByW]
  | cons y ys ih =>
    intro h
    rcases List.pairwise_cons.mp h with ⟨hy, hys⟩
    by_cases hc : y.weighted_roi ≤ x.weighted_roi
    · simp only [insertByW, if_pos hc]
      refine List.pairwise_cons.mpr ⟨?_, h⟩
      intro z hz
      rcases List.mem_cons.mp hz with rfl | hz1
      · exact hc
      · exact (hy z hz1).trans hc
    · simp only [insertByW, if_neg hc]
      refine List.pairwise_cons.mpr ⟨?_, ih hys⟩
      intro z hz
      have hz1 : z ∈ x :: ys := (insertByW_perm x ys).mem_iff.mp hz
      rcases List.mem_cons.mp hz1 with rfl | hz2
      · exact le_of_lt (lt_of_not_le hc)
      · exact hy z hz2

theorem sortByW_pairwise : ∀ l, List.Pairwise
    (fun g1 g2 => g2.weighted_roi ≤ g1.weighted_roi) (sortByW l) := by
  intro l
  induction l with
  | nil => simp [sortByW]
  | cons x xs ih =>
    have h1 : sortByW (x :: xs) = insertByW x (sortByW xs) := rfl
    rw [h1]
    exact insertByW_pairwise ih

theorem insertByW_filter_eq {x : ScoredGroup} {c : ℚ} (hx : x.weighted_roi = c) :
    ∀ l, (insertByW x l).filter (fun g => decide (g.weighted_roi = c))
      = x :: l.filter (fun g => decide (g.weighted_roi = c)) := by
  intro l
  induction l with
  | nil => simp [insertByW, List.filter_cons, hx]
  | cons y ys ih =>
    by_cases hc : y.weighted_roi ≤ x.weighted_roi
    · simp only [insertByW, if_pos hc]
      simp [List.filter_cons, hx]
    · have hyne : ¬ (y.weighted_roi = c) := by
        intro hy
        rw [← hx] at hy
        exact hc (le_of_eq hy)
      simp only [insertByW, if_neg hc]
      simp [List.filter_cons, hyne, ih]

theorem insertByW_filter_ne {x : ScoredGroup} {c : ℚ} (hx : ¬ (x.weighted_roi = c)) :
    ∀ l, (insertByW x l).filter (fun g => decide (g.weighted_roi = c))
      = l.filter (fun g => decide (g.weighted_roi = c)) := by
  intro l
  induction l with
  | nil => simp [insertByW, List.filter_cons, hx]
  | cons y ys ih =>
    by_cases hc : y.weighted_roi ≤ x.weighted_roi
    · simp only [insertByW, if_pos hc]
      simp [List.filter_cons, hx]
    · simp only [insertByW, if_neg hc]
      simp [List.filter_cons, ih]

theorem sortByW_filter (c : ℚ) : ∀ l, (sortByW l).filter (fun g => decide (g.weighted_roi = c))
      = l.filter (fun g => decide (g.weighted_roi = c)) := by
  intro l
  induction l with
  | nil => simp [sortByW]
  | cons x xs ih =>
    have h1 : sortByW (x :: xs) = insertByW x (sortByW xs) := rfl
    rw [h1]
    by_cases hx : x.weighted_roi = c
    · rw [insertByW_filter_eq hx, ih]
      simp [List.filter_cons, hx]
    · rw [insertByW_filter_ne hx, ih]
      simp [List.filter_cons, hx]

/-! ## From analyze to the accumulator -/

theorem analyze_ok {r s : List RawListing} {out : List ScoredGroup}
    (h : analyze r s = Except.ok out) :
    ∃ pre, scoreAll (flattenBD (accum r s)) = Except.ok pre ∧ out = sortByW pre := by
  simp only [analyze] at h
  cases hsc : scoreAll (flattenBD (accum r s)) with
  | error e =>
    rw [hsc] at h
    simp [Bind.bind, Except.bind] at h
  | ok pre =>
    rw [hsc] at h
    simp only [Bind.bind, Except.bind, pure, Except.pure, Except.ok.injEq] at h
    exact ⟨pre, rfl, h.symm⟩

theorem analyze_ok_mem {r s : List RawListing} {out : List ScoredGroup}
    (h : analyze r s = Except.ok out) :
    (∀ g ∈ out, ∃ b k gd, lookupGroup (accum r s) b k = some gd
        ∧ gd.rent ≠ [] ∧ gd.sale ≠ [] ∧ g = mkScored b k gd)
    ∧ (∀ b k gd, lookupGroup (accum r s) b k = some gd → gd.rent ≠ [] → gd.sale ≠ []
        → mkScored b k gd ∈ out) := by
  obtain ⟨pre, hsc, rfl⟩ := analyze_ok h
  rw [scoreAll_eq] at hsc
  by_cases hc : ∀ e ∈ flattenBD (accum r s), qualifiesB e.2.2
      → ¬ (e.2.2.sale.sum / ((e.2.2.sale.length : ℚ)) = 0)
  · rw [if_pos hc] at hsc
    have hpre : pre = ((flattenBD (accum r s)).filter (fun e => qualifiesB e.2.2)).map
        (fun e => mkScored e.1 e.2.1 e.2.2) := (Except.ok.inj hsc).symm
    constructor
    · intro g hg
      have hg1 : g ∈ pre := (sortByW_perm pre).mem_iff.mp hg
      rw [hpre] at hg1
      rcases List.mem_map.mp hg1 with ⟨⟨b, k, gd⟩, he, rfl⟩
      rcases List.mem_filter.mp he with ⟨hmem, hq⟩
      have hl : lookupGroup (accum r s) b k = some gd :=
        (lookupGroup_flattenBD (WFbd_accum r s)).mp hmem
      have hq2 : gd.rent ≠ [] ∧ gd.sale ≠ [] := by
        simpa [qualifiesB] using hq
      exact ⟨b, k, gd, hl, hq2.1, hq2.2, rfl⟩
    · intro b k gd hl hr hs2
      have hmem : (b, k, gd) ∈ flattenBD (accum r s) :=
        (lookupGroup_flattenBD (WFbd_accum r s)).mpr hl
      have hq : qualifiesB gd = true := by
        simp [qualifiesB, hr, hs2]
      have hin : mkScored b k gd ∈ pre := by
        rw [hpre]
        exact List.mem_map.mpr ⟨(b, k, gd), List.mem_filter.mpr ⟨hmem, hq⟩, rfl⟩
      exact (sortByW_perm pre).mem_iff.mpr hin
  · rw [if_neg hc] at hsc
    cases hsc

/-! ## Normalizer lemmas -/

theorem processItem_skip {rd : List RawListing} {bd : BuildingData} {item : RawListing}
    (h : normKey item = none) : processItem rd bd item = bd := by
  simp [processItem, h]

theorem foldl_filter_wf (rd : List RawListing) :
    ∀ (items : List RawListing) (bd : BuildingData),
      items.foldl (processItem rd) bd = (items.filter wellFormed).foldl (processItem rd) bd := by
  intro items
  induction items with
  | nil => intro bd; rfl
  | cons it rest ih =>
    intro bd
    by_cases h : wellFormed it
    · have hf : (it :: rest).filter wellFormed = it :: rest.filter wellFormed := by
        simp [List.filter_cons, h]
      rw [hf]
      exact ih (processItem rd bd it)
    · have hn : normKey it = none := by
        rw [Bool.not_eq_true] at h
        simpa [wellFormed] using h
      have hf : (it :: rest).filter wellFormed = rest.filter wellFormed := by
        simp [List.filter_cons, h]
      rw [hf]
      have hstep : (it :: rest).foldl (processItem rd) bd
          = rest.foldl (processItem rd) bd := by
        have h1 : (it :: rest).foldl (processItem rd) bd
            = rest.foldl (processItem rd) (processItem rd bd it) := rfl
        rw [h1, processItem_skip hn]
      rw [hstep]
      exact ih bd

theorem processItem_rd_congr {rd rd2 : List RawListing} (bd : BuildingData)
    (it : RawListing) (h : it ∈ rd ↔ it ∈ rd2) :
    processItem rd bd it = processItem rd2 bd it := by
  cases hn : normKey it with
  | none => simp [processItem, hn]
  | some t =>
    have hd : decide (it ∈ rd) = decide (it ∈ rd2) := decide_eq_decide.mpr h
    simp [processItem, hn, hd]

theorem foldl_rd_congr {rd rd2 : List RawListing} :
    ∀ (items : List RawListing) (bd : BuildingData),
      (∀ it ∈ items, (it ∈ rd ↔ it ∈ rd2)) →
      items.foldl (processItem rd) bd = items.foldl (processItem rd2) bd := by
  intro items
  induction items with
  | nil => intro bd _; rfl
  | cons it rest ih =>
    intro bd hmem
    have h1 : (it :: rest).foldl (processItem rd) bd
        = rest.foldl (processItem rd) (processItem rd bd it) := rfl
    have h2 : (it :: rest).foldl (processItem rd2) bd
        = rest.foldl (processItem rd2) (processItem rd2 bd it) := rfl
    rw [h1, h2, processItem_rd_congr bd it (hmem it (List.mem_cons_self _ _))]
    exact ih _ (fun x hx => hmem x (List.mem_cons_of_mem _ hx))

theorem accum_filter_wf (r s : List RawListing) :
    accum r s = accum (r.filter wellFormed) (s.filter wellFormed) := by
  unfold accum
  rw [foldl_filter_wf, List.filter_append]
  apply foldl_rd_congr
  intro it hit
  have hwf : wellFormed it := by
    rcases List.mem_append.mp hit with h | h
    · exact (List.mem_filter.mp h).2
    · exact (List.mem_filter.mp h).2
  simp [List.mem_filter, hwf]

/-! ## Classification lemmas (rent vs sale membership test) -/

theorem contribs_rentSide (rd : List RawListing) (b : String) (k : Key) :
    ∀ items : List RawListing,
      (contribs rd items b k).filterMap (fun c => if c.2.1 then some c.2.2 else none)
        = rentSide rd b k items := by
  intro items
  induction items with
  | nil => rfl
  | cons it rest ih =>
    cases hn : normKey it with
    | none =>
      simp only [contribs, rentSide, List.filterMap_cons, hn] at ih ⊢
      exact ih
    | some t =>
      obtain ⟨b1, k1, pr⟩ := t
      by_cases hbk : b1 = b ∧ k1 = k
      · by_cases hm : it ∈ rd
        · simp only [contribs, rentSide, List.filterMap_cons, hn] at ih ⊢
          simp [hbk, hm, ih]
        · simp only [contribs, rentSide, List.filterMap_cons, hn] at ih ⊢
          simp [hbk, hm, ih]
      · simp only [contribs, rentSide, List.filterMap_cons, hn] at ih ⊢
        have hbk2 : ¬ (b1 = b ∧ k1 = k ∧ it ∈ rd) := by
          rintro ⟨ha, hb2, _⟩
          exact hbk ⟨ha, hb2⟩
        simp [hbk, hbk2, ih]

theorem contribs_saleSide (rd : List RawListing) (b : String) (k : Key) :
    ∀ items : List RawListing,
      (contribs rd items b k).filterMap (fun c => if c.2.1 then none else some c.2.2)
        = saleSide rd b k items := by
  intro items
  induction items with
  | nil => rfl
  | cons it rest ih =>
    cases hn : normKey it with
    | none =>
      simp only [contribs, saleSide, List.filterMap_cons, hn] at ih ⊢
      exact ih
    | some t =>
      obtain ⟨b1, k1, pr⟩ := t
      by_cases hbk : b1 = b ∧ k1 = k
      · by_cases hm : it ∈ rd
        · simp only [contribs, saleSide, List.filterMap_cons, hn] at ih ⊢
          have hbk2 : ¬ (b1 = b ∧ k1 = k ∧ it ∉ rd) := by
            rintro ⟨_, _, hnm⟩
            exact hnm hm
          simp [hbk, hm, hbk2, ih]
        · simp only [contribs, saleSide, List.filterMap_cons, hn] at ih ⊢
          simp [hbk, hm, ih]
      · simp only [contribs, saleSide, List.filterMap_cons, hn] at ih ⊢
        have hbk2 : ¬ (b1 = b ∧ k1 = k ∧ it ∉ rd) := by
          rintro ⟨ha, hb2, _⟩
          exact hbk ⟨ha, hb2⟩
        simp [hbk, hbk2, ih]

theorem rentSide_of_all_mem {rd : List RawListing} {b : String} {k : Key} :
    ∀ {items : List RawListing}, (∀ it ∈ items, it ∈ rd) →
      rentSide rd b k items = keyPrices b k items := by
  intro items
  induction items with
  | nil => intro _; rfl
  | cons it rest ih =>
    intro h
    have hm : it ∈ rd := h it (List.mem_cons_self _ _)
    have hrest := ih (fun x hx => h x (List.mem_cons_of_mem _ hx))
    cases hn : normKey it with
    | none => simp [rentSide, keyPrices, List.filterMap_cons, hn] at hrest ⊢; exact hrest
    | some t =>
      obtain ⟨b1, k1, pr⟩ := t
      by_cases hbk : b1 = b ∧ k1 = k
      · simp only [rentSide, keyPrices, List.filterMap_cons, hn] at hrest ⊢
        simp [hbk, hm, hrest]
      · simp only [rentSide, keyPrices, List.filterMap_cons, hn] at hrest ⊢
        have hbk2 : ¬ (b1 = b ∧ k1 = k ∧ it ∈ rd) := by
          rintro ⟨ha, hb2, _⟩
          exact hbk ⟨ha, hb2⟩
        simp [hbk, hbk2, hrest]

theorem rentSide_of_none_mem {rd : List RawListing} {b : String} {k : Key} :
    ∀ {items : List RawListing}, (∀ it ∈ items, it ∉ rd) →
      rentSide rd b k items = [] := by
  intro items
  induction items with
  | nil => intro _; rfl
  | cons it rest ih =>
    intro h
    have hm : it ∉ rd := h it (List.mem_cons_self _ _)
    have hrest := ih (fun x hx => h x (List.mem_cons_of_mem _ hx))
    cases hn : normKey it with
    | none => simp [rentSide, List.filterMap_cons, hn] at hrest ⊢; exact hrest
    | some t =>
      obtain ⟨b1, k1, pr⟩ := t
      have hbk2 : ¬ (b1 = b ∧ k1 = k ∧ it ∈ rd) := by
        rintro ⟨_, _, hmm⟩
        exact hm hmm
      simp only [rentSide, List.filterMap_cons, hn] at hrest ⊢
      simp [hbk2, hrest]

theorem saleSide_of_all_mem {rd : List RawListing} {b : String} {k : Key} :
    ∀ {items : List RawListing}, (∀ it ∈ items, it ∉ rd) →
      saleSide rd b k items = keyPrices b k items := by
  intro items
  induction items with
  | nil => intro _; rfl
  | cons it rest ih =>
    intro h
    have hm : it ∉ rd := h it (List.mem_cons_self _ _)
    have hrest := ih (fun x hx => h x (List.mem_cons_of_mem _ hx))
    cases hn : normKey it with
    | none => simp [saleSide, keyPrices, List.filterMap_cons, hn] at hrest ⊢; exact hrest
    | some t =>
      obtain ⟨b1, k1, pr⟩ := t
      by_cases hbk : b1 = b ∧ k1 = k
      · simp only [saleSide, keyPrices, List.filterMap_cons, hn] at hrest ⊢
        simp [hbk, hm, hrest]
      · simp only [saleSide, keyPrices, List.filterMap_cons, hn] at hrest ⊢
        have hbk2 : ¬ (b1 = b ∧ k1 = k ∧ it ∉ rd) := by
          rintro ⟨ha, hb2, _⟩
          exact hbk ⟨ha, hb2⟩
        simp [hbk, hbk2, hrest]

theorem saleSide_of_none_mem {rd : List RawListing} {b : String} {k : Key} :
    ∀ {items : List RawListing}, (∀ it ∈ items, it ∈ rd) →
      saleSide rd b k items = [] := by
  intro items
  induction items with
  | nil => intro _; rfl
  | cons it rest ih =>
    intro h
    have hm : it ∈ rd := h it (List.mem_cons_self _ _)
    have hrest := ih (fun x hx => h x (List.mem_cons_of_mem _ hx))
    cases hn : normKey it with
    | none => simp [saleSide, List.filterMap_cons, hn] at hrest ⊢; exact hrest
    | some t =>
      obtain ⟨b1, k1, pr⟩ := t
      have hbk2 : ¬ (b1 = b ∧ k1 = k ∧ it ∉ rd) := by
        rintro ⟨_, _, hmm⟩
        exact hmm hm
      simp only [saleSide, List.filterMap_cons, hn] at hrest ⊢
      simp [hbk2, hrest]

theorem rentSide_append (rd : List RawListing) (b : String) (k : Key)
    (l1 l2 : List RawListing) :
    rentSide rd b k (l1 ++ l2) = rentSide rd b k l1 ++ rentSide rd b k l2 :=
  List.filterMap_append l1 l2 _

theorem saleSide_append (rd : List RawListing) (b : String) (k : Key)
    (l1 l2 : List RawListing) :
    saleSide rd b k (l1 ++ l2) = saleSide rd b k l1 ++ saleSide rd b k l2 :=
  List.filterMap_append l1 l2 _

end Dubai

deriving instance DecidableEq for Except

namespace Dubai

/-! ## Concrete test fixtures -/

/-- A well-formed listing literal (no geolocation, no neighborhoods). -/
def mkL (b : String) (bed bath sz : ℤ) (pr : ℚ) : RawListing :=
  ⟨some b, some bed, some bath, some sz, some pr, none, none⟩

/-- Rent stream of the ROI-formula scenario: prices 1000 and 1200. -/
def rentC3 : List RawListing := [mkL "A" 1 1 650 1000, mkL "A" 1 1 650 1200]

/-- Sale stream of the ROI-formula scenario: prices 100000 and 120000. -/
def saleC3 : List RawListing := [mkL "A" 1 1 650 100000, mkL "A" 1 1 650 120000]

/-- The single scored group the ROI-formula scenario produces. -/
def gC3 : ScoredGroup :=
  { building := "A", bedrooms := 1, bathrooms := 1, size_range := "600-799 sqft"
    avg_rent := 1100, avg_sale := 110000, roi := 1, rent_samples := 2, sale_samples := 2
    weight := 2, weighted_roi := 2, geolocation := none, neighborhoods := [] }

/-- Rent stream of the zero-mean-sale scenario. -/
def rentZ : List RawListing := [mkL "A" 1 1 650 1000]

/-- Sale stream of the zero-mean-sale scenario: a single sale at price 0. -/
def saleZ : List RawListing := [mkL "A" 1 1 650 0]

/-- A listing value appearing in both streams in the duplicate scenario. -/
def dupL : RawListing := mkL "A" 1 1 650 1000

/-! ## Claim C1 -/

/-- C1: a ScoredGroup for a group key appears in the output iff that key's
accumulator holds at least one rent price and at least one sale price; in
particular every output record comes from such a two-sided accumulator, so
a rent-only or sale-only group is never emitted. -/
theorem C1_scored_iff_both_sides (r s : List RawListing) (out : List ScoredGroup)
    (h : analyze r s = Except.ok out) :
    (∀ b k gd, lookupGroup (accum r s) b k = some gd →
      ((gd.rent ≠ [] ∧ gd.sale ≠ []) ↔ mkScored b k gd ∈ out))
    ∧ (∀ g ∈ out, ∃ b k gd, lookupGroup (accum r s) b k = some gd
        ∧ gd.rent ≠ [] ∧ gd.sale ≠ [] ∧ g = mkScored b k gd) := by
  obtain ⟨hsound, hcomp⟩ := analyze_ok_mem h
  refine ⟨?_, hsound⟩
  intro b k gd hl
  constructor
  · rintro ⟨hr, hs2⟩
    exact hcomp b k gd hl hr hs2
  · intro hmem
    rcases hsound _ hmem with ⟨b2, k2, gd2, _, hr2, hs2, heq⟩
    have h1 : gd.rent.length = gd2.rent.length := by
      have := congrArg ScoredGroup.rent_samples heq
      simpa [mkScored] using this
    have h2 : gd.sale.length = gd2.sale.length := by
      have := congrArg ScoredGroup.sale_samples heq
      simpa [mkScored] using this
    constructor
    · intro hnil
      rw [hnil] at h1
      exact hr2 (List.length_eq_zero.mp h1.symm)
    · intro hnil
      rw [hnil] at h2
      exact hs2 (List.length_eq_zero.mp h2.symm)

/-- C1 witness: the ROI-formula scenario instantiates C1. -/
theorem C1_witness :
    analyze rentC3 saleC3 = Except.ok [gC3]
    ∧ ((∀ b k gd, lookupGroup (accum rentC3 saleC3) b k = some gd →
        ((gd.rent ≠ [] ∧ gd.sale ≠ []) ↔ mkScored b k gd ∈ [gC3]))
      ∧ (∀ g ∈ [gC3], ∃ b k gd, lookupGroup (accum rentC3 saleC3) b k = some gd
          ∧ gd.rent ≠ [] ∧ gd.sale ≠ [] ∧ g = mkScored b k gd)) := by
  have hok : analyze rentC3 saleC3 = Except.ok [gC3] := by
    norm_num [analyze, accum, processItem, normKey, updateAssoc, lookupA, addObs, emptyGD,
      flattenBD, scoreAll, scoreEntry, qualifiesB, mkScored, sortByW, insertByW,
      sortedNeighborhoods, sizeRangeStr, Bind.bind, Except.bind, mkL, rentC3, saleC3,
      List.dedup, List.insertionSort, gC3]
    decide
  exact ⟨hok, C1_scored_iff_both_sides rentC3 saleC3 [gC3] hok⟩

/-! ## Claim C2 -/

/-- C2: the claim says a group with non-empty rent and sale lists but zero
mean sale price is excluded from the output without crashing; the code
instead evaluates `(avg_rent / avg_sale) * 100`, and Python float division
by zero raises `ZeroDivisionError`, so `analyze` aborts (modelled as
`Except.error ()`) on the zero-mean-sale scenario. -/
theorem C2_zero_avg_sale_crashes : analyze rentZ saleZ = Except.error () := by
  norm_num [analyze, accum, processItem, normKey, updateAssoc, lookupA, addObs, emptyGD,
    flattenBD, scoreAll, scoreEntry, qualifiesB, mkScored, sortByW, insertByW,
    sortedNeighborhoods, sizeRangeStr, Bind.bind, Except.bind, mkL, rentZ, saleZ,
    List.dedup, List.insertionSort]

/-! ## Claim C3 -/

/-- C3: every emitted ScoredGroup carries the arithmetic means of its
group's rent and sale price lists, `roi = (avg_rent / avg_sale) * 100`,
the two sample counts, `weight = min rent_samples sale_samples` and
`weighted_roi = roi * weight`. -/
theorem C3_roi_formulas (r s : List RawListing) (out : List ScoredGroup)
    (h : analyze r s = Except.ok out) :
    ∀ g ∈ out, ∃ b k gd, lookupGroup (accum r s) b k = some gd
      ∧ g.avg_rent = gd.rent.sum / (gd.rent.length : ℚ)
      ∧ g.avg_sale = gd.sale.sum / (gd.sale.length : ℚ)
      ∧ g.roi = g.avg_rent / g.avg_sale * 100
      ∧ g.rent_samples = gd.rent.length
      ∧ g.sale_samples = gd.sale.length
      ∧ g.weight = min g.rent_samples g.sale_samples
      ∧ g.weighted_roi = g.roi * (g.weight : ℚ) := by
  intro g hg
  rcases (analyze_ok_mem h).1 g hg with ⟨b, k, gd, hl, _, _, rfl⟩
  exact ⟨b, k, gd, hl, rfl, rfl, rfl, rfl, rfl, rfl, by simp [mkScored]⟩

/-- C3 witness: on rent prices [1000, 1200] and sale prices
[100000, 120000] the pipeline emits exactly one group with avg_rent 1100,
avg_sale 110000, roi 1, weight 2, weighted_roi 2. -/
theorem C3_witness :
    analyze rentC3 saleC3 = Except.ok [gC3]
    ∧ gC3.avg_rent = 1100 ∧ gC3.avg_sale = 110000 ∧ gC3.roi = 1
    ∧ gC3.weight = 2 ∧ gC3.weighted_roi = 2
    ∧ (∀ g ∈ [gC3], ∃ b k gd, lookupGroup (accum rentC3 saleC3) b k = some gd
      ∧ g.avg_rent = gd.rent.sum / (gd.rent.length : ℚ)
      ∧ g.avg_sale = gd.sale.sum / (gd.sale.length : ℚ)
      ∧ g.roi = g.avg_rent / g.avg_sale * 100
      ∧ g.rent_samples = gd.rent.length
      ∧ g.sale_samples = gd.sale.length
      ∧ g.weight = min g.rent_samples g.sale_samples
      ∧ g.weighted_roi = g.roi * (g.weight : ℚ)) := by
  have hok : analyze rentC3 saleC3 = Except.ok [gC3] := by
    norm_num [analyze, accum, processItem, normKey, updateAssoc, lookupA, addObs, emptyGD,
      flattenBD, scoreAll, scoreEntry, qualifiesB, mkScored, sortByW, insertByW,
      sortedNeighborhoods, sizeRangeStr, Bind.bind, Except.bind, mkL, rentC3, saleC3,
      List.dedup, List.insertionSort, gC3]
    decide
  exact ⟨hok, rfl, rfl, rfl, rfl, rfl, C3_roi_formulas rentC3 saleC3 [gC3] hok⟩

/-! ## Claim C7 -/

/-- The silent drop class of the embedded normalizer: exactly the
listings with a missing/empty building name or a missing bedrooms,
bathrooms, size or price field. -/
theorem normKey_eq_none_iff (item : RawListing) :
    normKey item = none ↔
      (item.building = none ∨ item.building = some "" ∨ item.bedrooms = none
        ∨ item.bathrooms = none ∨ item.size = none ∨ item.price = none) := by
  obtain ⟨bu, bed, bath, sz, pr, geo, ne⟩ := item
  cases bu with
  | none => simp [normKey]
  | some name =>
    by_cases hname : name = ""
    · subst hname
      simp [normKey]
    · cases bed <;> cases bath <;> cases sz <;> cases pr <;>
        simp [normKey, hname]

/-- Dropped listings contribute nothing: the analysis is unchanged when
they are removed from the input streams. -/
theorem analyze_filter_wf (r s : List RawListing) :
    analyze r s = analyze (r.filter wellFormed) (s.filter wellFormed) := by
  simp only [analyze]
  rw [accum_filter_wf]

/-- C7: the claim says every listing whose English building name is
absent (which the spec spells out as missing *or null*) is silently
excluded and that the normalizer never raises.  The code violates this:
when the building dict carries a `name` entry that is present but null
(or not a dict), the `{}` default of `building.get('name', {})` does not
apply and run.py line 150 raises AttributeError — likewise line 175 for
`neighborhoods.name` — crashing the analysis instead of dropping the
listing.  Every other malformed shape of the two fields is indeed
extracted without an error. -/
theorem C7_null_name_field_crashes :
    extractBuildingName BuildingJson.nameNotDict = Except.error ()
    ∧ extractNeighborhoodNames NeighborhoodsJson.nameNotDict = Except.error ()
    ∧ extractBuildingName BuildingJson.absent = Except.ok none
    ∧ extractBuildingName BuildingJson.nameMissing = Except.ok none
    ∧ extractBuildingName (BuildingJson.nameEn none) = Except.ok none
    ∧ extractBuildingName (BuildingJson.nameEn (some "")) = Except.ok none
    ∧ (∀ s : String, extractBuildingName (BuildingJson.nameEn (some s))
        = Except.ok (if s = "" then none else some s))
    ∧ extractNeighborhoodNames NeighborhoodsJson.absentOrNotDict = Except.ok []
    ∧ extractNeighborhoodNames NeighborhoodsJson.nameMissing = Except.ok []
    ∧ extractNeighborhoodNames (NeighborhoodsJson.nameEn none) = Except.ok []
    ∧ (∀ l : List String, extractNeighborhoodNames (NeighborhoodsJson.nameEn (some l))
        = Except.ok l) := by
  refine ⟨rfl, rfl, rfl, rfl, rfl, ?_, fun s => rfl, rfl, rfl, rfl, fun l => rfl⟩
  simp [extractBuildingName]

/-! ## Claim C8 -/

/-- C8 counterexample: the claim says a sale-stream record always
contributes its price to the sale side even when it is equal, as a value,
to a rent-stream record.  With the same listing value in both streams
(rent price 1000), the code's `item in rent_data` test classifies both
occurrences as rent: the accumulator holds rent [1000, 1000] and sale [],
and the group is not emitted at all. -/
theorem C8_counterexample :
    lookupGroup (accum [dupL] [dupL]) "A" (1, 1, 600)
        = some ⟨[1000, 1000], [], [], []⟩
    ∧ analyze [dupL] [dupL] = Except.ok [] := by
  constructor
  · norm_num [accum, processItem, normKey, updateAssoc, lookupA, lookupGroup, addObs,
      emptyGD, dupL, mkL]
    decide
  · norm_num [analyze, accum, processItem, normKey, updateAssoc, lookupA, addObs, emptyGD,
      flattenBD, scoreAll, scoreEntry, qualifiesB, mkScored, sortByW, insertByW,
      sortedNeighborhoods, sizeRangeStr, Bind.bind, Except.bind, dupL, mkL,
      List.dedup, List.insertionSort]
    decide

/-- C8 amended: a retained listing's price is appended to the rent side
exactly when the listing is equal (as a value) to some element of the rent
stream, and to the sale side otherwise; when no sale-stream record equals
a rent-stream record, this coincides with classification by source
stream. -/
theorem C8_amended_membership_classification (r s : List RawListing) (b : String) (k : Key)
    (gd : GroupData) (h : lookupGroup (accum r s) b k = some gd) :
    (gd.rent = rentSide r b k (r ++ s) ∧ gd.sale = saleSide r b k (r ++ s))
    ∧ ((∀ it ∈ s, it ∉ r) →
        gd.rent = keyPrices b k r ∧ gd.sale = keyPrices b k s) := by
  rw [lookupGroup_accum] at h
  by_cases hc : contribs r (r ++ s) b k = []
  · rw [if_pos hc] at h
    cases h
  · rw [if_neg hc] at h
    have hgd : gd = applyContribs (contribs r (r ++ s) b k) emptyGD :=
      (Option.some.inj h).symm
    have hrent : gd.rent = rentSide r b k (r ++ s) := by
      rw [hgd, applyContribs_rent]
      simpa [emptyGD] using contribs_rentSide r b k (r ++ s)
    have hsale : gd.sale = saleSide r b k (r ++ s) := by
      rw [hgd, applyContribs_sale]
      simpa [emptyGD] using contribs_saleSide r b k (r ++ s)
    refine ⟨⟨hrent, hsale⟩, ?_⟩
    intro hdisj
    constructor
    · rw [hrent, rentSide_append]
      rw [rentSide_of_all_mem (fun it hit => hit), rentSide_of_none_mem hdisj]
      simp
    · rw [hsale, saleSide_append]
      rw [saleSide_of_none_mem (fun it hit => hit), saleSide_of_all_mem hdisj]
      simp

/-- C8 witness: the disjoint ROI-formula scenario instantiates the amended
classification statement. -/
theorem C8_witness :
    lookupGroup (accum rentC3 saleC3) "A" (1, 1, 600)
        = some ⟨[1000, 1200], [100000, 120000], [], []⟩
    ∧ ((⟨[1000, 1200], [100000, 120000], [], []⟩ : GroupData).rent
          = rentSide rentC3 "A" (1, 1, 600) (rentC3 ++ saleC3)
        ∧ (⟨[1000, 1200], [100000, 120000], [], []⟩ : GroupData).sale
          = saleSide rentC3 "A" (1, 1, 600) (rentC3 ++ saleC3))
    ∧ ((∀ it ∈ saleC3, it ∉ rentC3) →
        (⟨[1000, 1200], [100000, 120000], [], []⟩ : GroupData).rent
            = keyPrices "A" (1, 1, 600) rentC3
          ∧ (⟨[1000, 1200], [100000, 120000], [], []⟩ : GroupData).sale
            = keyPrices "A" (1, 1, 600) saleC3) := by
  have hl : lookupGroup (accum rentC3 saleC3) "A" (1, 1, 600)
      = some ⟨[1000, 1200], [100000, 120000], [], []⟩ := by
    norm_num [accum, processItem, normKey, updateAssoc, lookupA, lookupGroup, addObs,
      emptyGD, rentC3, saleC3, mkL]
    decide
  have h2 := C8_amended_membership_classification rentC3 saleC3 "A" (1, 1, 600) _ hl
  exact ⟨hl, h2.1, h2.2⟩

/-! ## Claim C9 -/

/-- C9: a geolocation contributes to a group exactly when the listing
carries a geolocation pair with both coordinates present (numbers in the
model are rationals, hence finite), and an emitted group's geolocation,
when present, is the component-wise mean of the group's geolocation
points — a pair of rationals. -/
theorem C9_geolocation (r s : List RawListing) (out : List ScoredGroup)
    (h : analyze r s = Except.ok out) :
    (∀ (item : RawListing) (la ln : ℚ),
        geoOf item = some (la, ln) ↔ item.geoloc = some (some la, some ln))
    ∧ (∀ b k gd, lookupGroup (accum r s) b k = some gd →
        gd.geoloc_points = (contribs r (r ++ s) b k).filterMap (fun c => geoOf c.1))
    ∧ (∀ g ∈ out, ∃ b k gd, lookupGroup (accum r s) b k = some gd ∧
        ((gd.geoloc_points = [] ∧ g.geolocation = none) ∨
         (gd.geoloc_points ≠ [] ∧ g.geolocation = some
            ((gd.geoloc_points.map Prod.fst).sum / (gd.geoloc_points.length : ℚ),
             (gd.geoloc_points.map Prod.snd).sum / (gd.geoloc_points.length : ℚ))))) := by
  refine ⟨?_, ?_, ?_⟩
  · intro item la ln
    unfold geoOf
    cases hg : item.geoloc with
    | none => simp
    | some g =>
      obtain ⟨glat, glng⟩ := g
      cases glat <;> cases glng <;> simp
  · intro b k gd hl
    rw [lookupGroup_accum] at hl
    by_cases hc : contribs r (r ++ s) b k = []
    · rw [if_pos hc] at hl
      cases hl
    · rw [if_neg hc] at hl
      have hgd : gd = applyContribs (contribs r (r ++ s) b k) emptyGD :=
        (Option.some.inj hl).symm
      rw [hgd, applyContribs_geo]
      simp [emptyGD]
  · intro g hg
    rcases (analyze_ok_mem h).1 g hg with ⟨b, k, gd, hl, _, _, rfl⟩
    refine ⟨b, k, gd, hl, ?_⟩
    cases hgp : gd.geoloc_points with
    | nil => exact Or.inl ⟨rfl, by simp [mkScored, hgp]⟩
    | cons p rest =>
      refine Or.inr ⟨by simp [hgp], ?_⟩
      simp [mkScored, hgp]

/-- Rent stream of the geolocation scenario. -/
def rentG : List RawListing :=
  [⟨some "A", some 1, some 1, some 650, some 1000, some (some 25, some 55), none⟩]

/-- Sale stream of the geolocation scenario. -/
def saleG : List RawListing :=
  [⟨some "A", some 1, some 1, some 650, some 100000, some (some 26, some 56), none⟩]

/-- The scored group of the geolocation scenario: its geolocation is the
component-wise mean of (25, 55) and (26, 56). -/
def gG : ScoredGroup :=
  { building := "A", bedrooms := 1, bathrooms := 1, size_range := "600-799 sqft"
    avg_rent := 1000, avg_sale := 100000, roi := 1, rent_samples := 1, sale_samples := 1
    weight := 1, weighted_roi := 1
    geolocation := some ((51 : ℚ) / 2, (111 : ℚ) / 2), neighborhoods := [] }

/-- C9 witness: a scenario with one geolocated rent listing and one
geolocated sale listing instantiates C9. -/
theorem C9_witness :
    analyze rentG saleG = Except.ok [gG]
    ∧ (∀ (item : RawListing) (la ln : ℚ),
        geoOf item = some (la, ln) ↔ item.geoloc = some (some la, some ln)) := by
  have hok : analyze rentG saleG = Except.ok [gG] := by
    norm_num [analyze, accum, processItem, normKey, updateAssoc, lookupA, addObs, emptyGD,
      flattenBD, scoreAll, scoreEntry, qualifiesB, mkScored, sortByW, insertByW,
      sortedNeighborhoods, sizeRangeStr, Bind.bind, Except.bind, pure, Except.pure,
      rentG, saleG, gG, List.dedup, List.insertionSort]
    decide
  exact ⟨hok, (C9_geolocation _ _ _ hok).1⟩

/-- The emitted neighborhoods list depends only on the membership of the
accumulated names. -/
theorem sortedNeighborhoods_eq_of_mem_iff {l1 l2 : List String}
    (hmem : ∀ x, x ∈ l1 ↔ x ∈ l2) :
    sortedNeighborhoods l1 = sortedNeighborhoods l2 := by
  have hperm : List.Perm l1.dedup l2.dedup := by
    rw [List.perm_ext_iff_of_nodup (List.nodup_dedup l1) (List.nodup_dedup l2)]
    intro a
    simp only [List.mem_dedup]
    exact hmem a
  have hperm2 : List.Perm (sortedNeighborhoods l1) (sortedNeighborhoods l2) := by
    unfold sortedNeighborhoods
    exact ((List.perm_insertionSort _ _).trans hperm).trans
      (List.perm_insertionSort _ _).symm
  exact List.eq_of_perm_of_sorted hperm2
    (List.sorted_insertionSort _ _) (List.sorted_insertionSort _ _)

/-! ## Claim C10 -/

/-- C10: the pipeline is a pure function of its two input lists (running
it twice gives identical results), and the emitted neighborhoods list
depends only on the *set* of accumulated names — any two accumulation
orders or multiplicities with the same members produce the identical
sorted list, so the set-to-sorted-list conversion cannot introduce
nondeterminism. -/
theorem C10_deterministic :
    (∀ r s, analyze r s = analyze r s)
    ∧ (∀ l1 l2 : List String, (∀ x, x ∈ l1 ↔ x ∈ l2) →
        sortedNeighborhoods l1 = sortedNeighborhoods l2) :=
  ⟨fun r s => rfl, fun l1 l2 hmem => sortedNeighborhoods_eq_of_mem_iff hmem⟩

/-- C10 witness: two accumulation orders of the same neighborhood-name set
give the same emitted list. -/
theorem C10_witness :
    (∀ x : String, x ∈ ["b", "a", "a"] ↔ x ∈ ["a", "b"])
    ∧ sortedNeighborhoods ["b", "a", "a"] = sortedNeighborhoods ["a", "b"] := by
  have hmem : ∀ x : String, x ∈ ["b", "a", "a"] ↔ x ∈ ["a", "b"] := by
    intro x
    simp only [List.mem_cons, List.not_mem_nil, or_false]
    tauto
  exact ⟨hmem, C10_deterministic.2 _ _ hmem⟩

/-! ## Claim C6 -/

/-- Python floor division by 200 is the rational floor. -/
theorem fdiv_200_floor (sz : ℤ) : Int.fdiv sz 200 = ⌊(sz : ℚ) / 200⌋ := by
  rw [Int.fdiv_eq_ediv _ (by norm_num)]
  have h := Rat.floor_intCast_div_natCast sz 200
  push_cast at h
  rw [h]

/-- C6: every retained listing's size bucket is `floor(size / 200) * 200`
(with no special-casing, so zero and negative sizes go through the same
formula), an emitted group's size_range string is
"{bucket}-{bucket+199} sqft", and concretely sizes 650 and 799 bucket to
600 (string "600-799 sqft") while size 800 buckets to 800. -/
theorem C6_size_bucketing :
    (∀ (item : RawListing) (b : String) (k : Key) (pr : ℚ),
        normKey item = some (b, k, pr) →
        ∃ sz : ℤ, item.size = some sz ∧ k.2.2 = ⌊(sz : ℚ) / 200⌋ * 200)
    ∧ (∀ bucket : ℤ, sizeRangeStr bucket
        = toString bucket ++ "-" ++ toString (bucket + 199) ++ " sqft")
    ∧ (∀ r s out, analyze r s = Except.ok out → ∀ g ∈ out,
        ∃ b k gd, lookupGroup (accum r s) b k = some gd
          ∧ g.size_range = sizeRangeStr k.2.2)
    ∧ (⌊((650 : ℤ) : ℚ) / 200⌋ * 200 = 600 ∧ sizeRangeStr 600 = "600-799 sqft"
        ∧ ⌊((799 : ℤ) : ℚ) / 200⌋ * 200 = 600 ∧ ⌊((800 : ℤ) : ℚ) / 200⌋ * 200 = 800) := by
  refine ⟨?_, fun bucket => rfl, ?_, ?_, by decide, ?_, ?_⟩
  · intro item b k pr h
    obtain ⟨bu, bed, bath, sz2, pr2, geo, ne⟩ := item
    cases bu with
    | none => simp [normKey] at h
    | some name =>
      by_cases hname : name = ""
      · simp [normKey, hname] at h
      · cases bed <;> cases bath <;> cases sz2 <;> cases pr2 <;>
          simp [normKey, hname] at h
        rename_i bedv bathv szv prv
        obtain ⟨h1, h2, h3⟩ := h
        subst h2
        refine ⟨szv, rfl, ?_⟩
        show Int.fdiv szv 200 * 200 = ⌊(szv : ℚ) / 200⌋ * 200
        rw [fdiv_200_floor]
  · intro r s out h g hg
    rcases (analyze_ok_mem h).1 g hg with ⟨b, k, gd, hl, _, _, rfl⟩
    exact ⟨b, k, gd, hl, rfl⟩
  · rw [← fdiv_200_floor]
    decide
  · rw [← fdiv_200_floor]
    decide
  · rw [← fdiv_200_floor]
    decide

/-- C6 witness: a size-650 listing lands in bucket 600, and the emitted
group's size_range string is derived from its key's bucket. -/
theorem C6_witness :
    normKey (mkL "A" 1 1 650 1000) = some ("A", (1, 1, 600), 1000)
    ∧ (∃ sz : ℤ, (mkL "A" 1 1 650 1000).size = some sz
        ∧ ((1, 1, 600) : Key).2.2 = ⌊(sz : ℚ) / 200⌋ * 200)
    ∧ analyze rentC3 saleC3 = Except.ok [gC3]
    ∧ (∀ g ∈ [gC3], ∃ b k gd, lookupGroup (accum rentC3 saleC3) b k = some gd
        ∧ g.size_range = sizeRangeStr k.2.2) := by
  have hn : normKey (mkL "A" 1 1 650 1000) = some ("A", (1, 1, 600), 1000) := by
    norm_num [normKey, mkL]
    decide
  have hok : analyze rentC3 saleC3 = Except.ok [gC3] := by
    norm_num [analyze, accum, processItem, normKey, updateAssoc, lookupA, addObs, emptyGD,
      flattenBD, scoreAll, scoreEntry, qualifiesB, mkScored, sortByW, insertByW,
      sortedNeighborhoods, sizeRangeStr, Bind.bind, Except.bind, mkL, rentC3, saleC3,
      List.dedup, List.insertionSort, gC3]
    decide
  exact ⟨hn, C6_size_bucketing.1 _ _ _ _ hn, hok,
    C6_size_bucketing.2.2.1 rentC3 saleC3 [gC3] hok⟩

/-! ## Insertion order of the accumulator -/

/-- First-occurrence deduplication with an explicit seen set. -/
def firstDedupAux [DecidableEq α] (seen : List α) : List α → List α
  | [] => []
  | a :: l => if a ∈ seen then firstDedupAux seen l else a :: firstDedupAux (a :: seen) l

/-- First-occurrence deduplication: the order in which distinct values
first appear in a list (Python dict key insertion order). -/
def firstDedup [DecidableEq α] (l : List α) : List α := firstDedupAux [] l

/-- The (building, key) pair of each retained listing, in input order. -/
def retainedPairs (items : List RawListing) : List (String × Key) :=
  items.filterMap (fun it => (normKey it).map (fun t => (t.1, t.2.1)))

theorem mem_firstDedupAux [DecidableEq α] :
    ∀ (l : List α) (seen : List α) (x : α),
      x ∈ firstDedupAux seen l ↔ x ∈ l ∧ x ∉ seen := by
  intro l
  induction l with
  | nil => intro seen x; simp [firstDedupAux]
  | cons a t ih =>
    intro seen x
    by_cases ha : a ∈ seen
    · rw [firstDedupAux, if_pos ha, ih]
      by_cases hx : x = a
      · subst hx
        simp [ha]
      · simp [hx]
    · rw [firstDedupAux, if_neg ha]
      by_cases hx : x = a
      · subst hx
        simp [ha]
      · simp only [List.mem_cons, hx, false_or]
        rw [ih]
        simp [hx]

theorem mem_firstDedup [DecidableEq α] : ∀ (l : List α) (x : α),
    x ∈ firstDedup l ↔ x ∈ l := by
  intro l x
  rw [firstDedup, mem_firstDedupAux]
  simp

theorem firstDedupAux_snoc [DecidableEq α] :
    ∀ (l : List α) (seen : List α) (a : α),
      firstDedupAux seen (l ++ [a])
        = if a ∈ seen ∨ a ∈ l then firstDedupAux seen l
          else firstDedupAux seen l ++ [a] := by
  intro l
  induction l with
  | nil =>
    intro seen a
    by_cases ha : a ∈ seen <;> simp [firstDedupAux, ha]
  | cons b t ih =>
    intro seen a
    by_cases hb : b ∈ seen
    · rw [List.cons_append, firstDedupAux, if_pos hb, ih seen a,
        firstDedupAux, if_pos hb]
      have hcond : (a ∈ seen ∨ a ∈ t) ↔ (a ∈ seen ∨ a ∈ b :: t) := by
        constructor
        · rintro (h | h)
          · exact Or.inl h
          · exact Or.inr (List.mem_cons_of_mem _ h)
        · rintro (h | h)
          · exact Or.inl h
          · rcases List.mem_cons.mp h with rfl | h2
            · exact Or.inl hb
            · exact Or.inr h2
      by_cases hc : a ∈ seen ∨ a ∈ t
      · rw [if_pos hc, if_pos (hcond.mp hc)]
      · rw [if_neg hc, if_neg (fun h2 => hc (hcond.mpr h2))]
    · rw [List.cons_append, firstDedupAux, if_neg hb, ih (b :: seen) a]
      conv_rhs => rw [firstDedupAux, if_neg hb]
      have hcond : (a ∈ b :: seen ∨ a ∈ t) ↔ (a ∈ seen ∨ a ∈ b :: t) := by
        simp only [List.mem_cons]
        tauto
      by_cases hc : a ∈ b :: seen ∨ a ∈ t
      · rw [if_pos hc, if_pos (hcond.mp hc)]
      · rw [if_neg hc, if_neg (fun h2 => hc (hcond.mpr h2))]
        simp

theorem firstDedup_snoc [DecidableEq α] :
    ∀ (l : List α) (a : α), firstDedup (l ++ [a])
      = if a ∈ l then firstDedup l else firstDedup l ++ [a] := by
  intro l a
  rw [firstDedup, firstDedup, firstDedupAux_snoc]
  simp

theorem lookupA_eq_none_iff [DecidableEq α] {k : α} :
    ∀ {l : List (α × β)}, lookupA k l = none ↔ k ∉ l.map Prod.fst := by
  intro l
  induction l with
  | nil => simp [lookupA]
  | cons p rest ih =>
    obtain ⟨k1, v⟩ := p
    by_cases h : k = k1
    · subst h
      simp [lookupA]
    · simp [lookupA, h, ih]

theorem retainedPairs_snoc (items : List RawListing) (it : RawListing) :
    retainedPairs (items ++ [it])
      = retainedPairs items ++ (match normKey it with
          | some t => [(t.1, t.2.1)]
          | none => []) := by
  unfold retainedPairs
  rw [List.filterMap_append]
  cases hn : normKey it <;> simp [hn]

theorem accum_fst_order (rd : List RawListing) :
    ∀ items : List RawListing,
      (items.foldl (processItem rd) []).map Prod.fst
        = firstDedup ((retainedPairs items).map Prod.fst) := by
  intro items
  induction items using List.reverseRecOn with
  | nil =>
    simp only [List.foldl_nil, List.map_nil]
    rw [retainedPairs, List.filterMap_nil, List.map_nil]
    rfl
  | append_singleton l it ih =>
    rw [List.foldl_append]
    simp only [List.foldl_cons, List.foldl_nil]
    rw [retainedPairs_snoc]
    cases hn : normKey it with
    | none =>
      simp only [processItem, hn]
      simpa using ih
    | some t =>
      obtain ⟨name, key, pr⟩ := t
      simp only [processItem, hn]
      rw [updateAssoc_map_fst, ih]
      rw [List.map_append]
      simp only [List.map_cons, List.map_nil]
      rw [firstDedup_snoc]
      have hmem : name ∈ firstDedup ((retainedPairs l).map Prod.fst)
          ↔ name ∈ (retainedPairs l).map Prod.fst := mem_firstDedup _ _
      by_cases hm : name ∈ (retainedPairs l).map Prod.fst
      · rw [if_pos (hmem.mpr hm), if_pos hm]
      · rw [if_neg (fun hc => hm (hmem.mp hc)), if_neg hm]

theorem accum_inner_order (rd : List RawListing) :
    ∀ (items : List RawListing) (b : String) (inner : List (Key × GroupData)),
      lookupA b (items.foldl (processItem rd) []) = some inner →
      inner.map Prod.fst
        = firstDedup (((retainedPairs items).filter (fun p => p.1 = b)).map Prod.snd) := by
  intro items
  induction items using List.reverseRecOn with
  | nil =>
    intro b inner h
    simp [lookupA] at h
  | append_singleton l it ih =>
    intro b inner h
    rw [List.foldl_append] at h
    simp only [List.foldl_cons, List.foldl_nil] at h
    rw [retainedPairs_snoc]
    cases hn : normKey it with
    | none =>
      rw [processItem, hn] at h
      simpa using ih b inner h
    | some t =>
      obtain ⟨name, key, pr⟩ := t
      rw [processItem, hn] at h
      simp only [List.filter_append, List.map_append]
      by_cases hb : b = name
      · subst hb
        rw [lookupA_updateAssoc_self] at h
        have hinner : inner = updateAssoc key
            (addObs it (decide (it ∈ rd)) pr) emptyGD
            ((lookupA b (l.foldl (processItem rd) [])).getD []) :=
          (Option.some.inj h).symm
        have hfilter : ([(b, key)].filter (fun p => p.1 = b)).map Prod.snd = [key] := by
          simp
        rw [hfilter, firstDedup_snoc]
        cases hl : lookupA b (l.foldl (processItem rd) []) with
        | none =>
          have hnone : ((retainedPairs l).filter (fun p => p.1 = b)).map Prod.snd = [] := by
            have hb2 : b ∉ (l.foldl (processItem rd) []).map Prod.fst :=
              lookupA_eq_none_iff.mp hl
            rw [accum_fst_order rd l] at hb2
            rw [mem_firstDedup] at hb2
            have : (retainedPairs l).filter (fun p => p.1 = b) = [] := by
              rw [List.filter_eq_nil_iff]
              intro p hp hpb
              apply hb2
              rw [List.mem_map]
              exact ⟨p, hp, by simpa using hpb⟩
            rw [this]
            rfl
          rw [hnone] at *
          rw [hinner, hl]
          simp only [Option.getD_none]
          rw [updateAssoc_map_fst]
          simp [firstDedup, firstDedupAux]
        | some inner0 =>
          have hio := ih b inner0 hl
          rw [hinner, hl]
          simp only [Option.getD_some]
          rw [updateAssoc_map_fst, hio]
          have hmem : key ∈ firstDedup (((retainedPairs l).filter
              (fun p => p.1 = b)).map Prod.snd)
              ↔ key ∈ ((retainedPairs l).filter (fun p => p.1 = b)).map Prod.snd :=
            mem_firstDedup _ _
          by_cases hm : key ∈ ((retainedPairs l).filter (fun p => p.1 = b)).map Prod.snd
          · rw [if_pos (hmem.mpr hm), if_pos hm]
          · rw [if_neg (fun hc => hm (hmem.mp hc)), if_neg hm]
      · rw [lookupA_updateAssoc_ne hb] at h
        have hnb : ¬ (name = b) := fun h2 => hb h2.symm
        have hfilter : ([(name, key)].filter (fun p => p.1 = b)).map Prod.snd = [] := by
          simp [hnb]
        rw [hfilter, List.append_nil]
        exact ih b inner h

/-! ## Claim C4 -/

/-- Rent stream of the tie-order scenario: groups (A,1bd), (B,1bd),
(A,2bd) first seen in that order across the input. -/
def rentX : List RawListing :=
  [mkL "A" 1 1 650 1000, mkL "B" 1 1 650 1000, mkL "A" 2 2 650 1000]

/-- Sale stream of the tie-order scenario (all groups tie at
weighted_roi 1). -/
def saleX : List RawListing :=
  [mkL "A" 1 1 650 100000, mkL "B" 1 1 650 100000, mkL "A" 2 2 650 100000]

/-- C4 counterexample: all three groups tie at weighted_roi 1 and their
group keys are first seen in the order (A,1bd), (B,1bd), (A,2bd), yet the
output order is A,1bd then A,2bd then B,1bd — the nested dict iterates
building-major, so the tying pair (B,1bd), (A,2bd) comes out in the
opposite order to the first-seen order of their GroupKeys, refuting the
claimed tie-breaking. -/
theorem C4_counterexample :
    firstDedup (retainedPairs (rentX ++ saleX))
      = [("A", (1, 1, 600)), ("B", (1, 1, 600)), ("A", (2, 2, 600))]
    ∧ (analyze rentX saleX).toOption.map
        (List.map (fun g => (g.building, g.bedrooms, g.weighted_roi)))
      = some [("A", 1, 1), ("A", 2, 1), ("B", 1, 1)] := by
  constructor
  · norm_num [retainedPairs, normKey, rentX, saleX, mkL, firstDedup]
    decide
  · norm_num [analyze, accum, processItem, normKey, updateAssoc, lookupA, addObs, emptyGD,
      flattenBD, scoreAll, scoreEntry, qualifiesB, mkScored, sortByW, insertByW,
      sortedNeighborhoods, sizeRangeStr, Bind.bind, Except.bind, pure, Except.pure,
      Except.toOption, rentX, saleX, mkL, List.dedup, List.insertionSort]

/-- C4 amended: the output is sorted by weighted_roi descending and the
sort is stable with respect to the pre-sort list; the pre-sort list
enumerates the accumulator in its insertion order, which is
building-major: buildings in first-seen order and, within one building,
group keys in first-seen order (not the global first-seen order of
GroupKeys across the input). -/
theorem C4_amended_sort_order (r s : List RawListing) (out : List ScoredGroup)
    (h : analyze r s = Except.ok out) :
    List.Pairwise (fun g1 g2 => g2.weighted_roi ≤ g1.weighted_roi) out
    ∧ (∃ pre, scoreAll (flattenBD (accum r s)) = Except.ok pre
        ∧ pre = ((flattenBD (accum r s)).filter (fun e => qualifiesB e.2.2)).map
            (fun e => mkScored e.1 e.2.1 e.2.2)
        ∧ ∀ c : ℚ, out.filter (fun g => decide (g.weighted_roi = c))
            = pre.filter (fun g => decide (g.weighted_roi = c)))
    ∧ (accum r s).map Prod.fst = firstDedup ((retainedPairs (r ++ s)).map Prod.fst)
    ∧ (∀ b inner, lookupA b (accum r s) = some inner →
        inner.map Prod.fst
          = firstDedup (((retainedPairs (r ++ s)).filter (fun p => p.1 = b)).map
              Prod.snd)) := by
  obtain ⟨pre, hsc, rfl⟩ := analyze_ok h
  refine ⟨sortByW_pairwise pre, ⟨pre, hsc, ?_, fun c => sortByW_filter c pre⟩,
    accum_fst_order r (r ++ s), fun b inner hb => accum_inner_order r (r ++ s) b inner hb⟩
  rw [scoreAll_eq] at hsc
  by_cases hc : ∀ e ∈ flattenBD (accum r s), qualifiesB e.2.2
      → ¬ (e.2.2.sale.sum / ((e.2.2.sale.length : ℚ)) = 0)
  · rw [if_pos hc] at hsc
    exact (Except.ok.inj hsc).symm
  · rw [if_neg hc] at hsc
    cases hsc

/-- C4 witness: the ROI-formula scenario instantiates the amended sort
statement. -/
theorem C4_witness :
    analyze rentC3 saleC3 = Except.ok [gC3]
    ∧ (List.Pairwise (fun g1 g2 => g2.weighted_roi ≤ g1.weighted_roi) [gC3]
      ∧ (∃ pre, scoreAll (flattenBD (accum rentC3 saleC3)) = Except.ok pre
          ∧ pre = ((flattenBD (accum rentC3 saleC3)).filter
              (fun e => qualifiesB e.2.2)).map (fun e => mkScored e.1 e.2.1 e.2.2)
          ∧ ∀ c : ℚ, [gC3].filter (fun g => decide (g.weighted_roi = c))
              = pre.filter (fun g => decide (g.weighted_roi = c)))
      ∧ (accum rentC3 saleC3).map Prod.fst
          = firstDedup ((retainedPairs (rentC3 ++ saleC3)).map Prod.fst)
      ∧ (∀ b inner, lookupA b (accum rentC3 saleC3) = some inner →
          inner.map Prod.fst
            = firstDedup (((retainedPairs (rentC3 ++ saleC3)).filter
                (fun p => p.1 = b)).map Prod.snd))) := by
  have hok : analyze rentC3 saleC3 = Except.ok [gC3] := by
    norm_num [analyze, accum, processItem, normKey, updateAssoc, lookupA, addObs, emptyGD,
      flattenBD, scoreAll, scoreEntry, qualifiesB, mkScored, sortByW, insertByW,
      sortedNeighborhoods, sizeRangeStr, Bind.bind, Except.bind, mkL, rentC3, saleC3,
      List.dedup, List.insertionSort, gC3]
    decide
  exact ⟨hok, C4_amended_sort_order rentC3 saleC3 [gC3] hok⟩

/-! ## Claim C5: order independence machinery -/

/-- The accumulator value of one group, as a function of the classifier
stream and the processed items. -/
def gdOf (rd items : List RawListing) (b : String) (k : Key) : GroupData :=
  applyContribs (contribs rd items b k) emptyGD

theorem contribs_rd_congr {r r2 : List RawListing}
    (hmem : ∀ it : RawListing, it ∈ r ↔ it ∈ r2) :
    ∀ (items : List RawListing) (b : String) (k : Key),
      contribs r items b k = contribs r2 items b k := by
  intro items b k
  induction items with
  | nil => rfl
  | cons it rest ih =>
    simp only [contribs, List.filterMap_cons] at ih ⊢
    cases hn : normKey it with
    | none => exact ih
    | some t =>
      obtain ⟨b1, k1, pr⟩ := t
      by_cases hbk : b1 = b ∧ k1 = k
      · simp only [if_pos hbk]
        rw [decide_eq_decide.mpr (hmem it), ih]
      · simp only [if_neg hbk]
        exact ih

theorem contribs_items_perm (rd : List RawListing) {items items2 : List RawListing}
    (hp : List.Perm items items2) (b : String) (k : Key) :
    List.Perm (contribs rd items b k) (contribs rd items2 b k) :=
  hp.filterMap _

theorem contribs_perm {r r2 s s2 : List RawListing} (hr : List.Perm r r2)
    (hs : List.Perm s s2) (b : String) (k : Key) :
    List.Perm (contribs r (r ++ s) b k) (contribs r2 (r2 ++ s2) b k) := by
  have h1 : List.Perm (contribs r (r ++ s) b k) (contribs r (r2 ++ s2) b k) :=
    contribs_items_perm r (hr.append hs) b k
  rw [contribs_rd_congr (fun it => hr.mem_iff) (r2 ++ s2) b k] at h1
  exact h1

theorem gdOf_rent (rd items : List RawListing) (b : String) (k : Key) :
    (gdOf rd items b k).rent
      = (contribs rd items b k).filterMap (fun c => if c.2.1 then some c.2.2 else none) := by
  rw [gdOf, applyContribs_rent]
  rfl

theorem gdOf_sale (rd items : List RawListing) (b : String) (k : Key) :
    (gdOf rd items b k).sale
      = (contribs rd items b k).filterMap (fun c => if c.2.1 then none else some c.2.2) := by
  rw [gdOf, applyContribs_sale]
  rfl

theorem gdOf_geo (rd items : List RawListing) (b : String) (k : Key) :
    (gdOf rd items b k).geoloc_points
      = (contribs rd items b k).filterMap (fun c => geoOf c.1) := by
  rw [gdOf, applyContribs_geo]
  rfl

theorem gdOf_neigh (rd items : List RawListing) (b : String) (k : Key) :
    (gdOf rd items b k).neighborhoods
      = ((contribs rd items b k).map (fun c => neighOf c.1)).flatten := by
  rw [gdOf, applyContribs_neigh]
  rfl

/-- Group statistics are invariant under permutation of the contribution
sequence. -/
theorem gdOf_equiv {r r2 s s2 : List RawListing} (hr : List.Perm r r2)
    (hs : List.Perm s s2) (b : String) (k : Key) :
    List.Perm (gdOf r (r ++ s) b k).rent (gdOf r2 (r2 ++ s2) b k).rent
    ∧ List.Perm (gdOf r (r ++ s) b k).sale (gdOf r2 (r2 ++ s2) b k).sale
    ∧ List.Perm (gdOf r (r ++ s) b k).geoloc_points (gdOf r2 (r2 ++ s2) b k).geoloc_points
    ∧ List.Perm (gdOf r (r ++ s) b k).neighborhoods (gdOf r2 (r2 ++ s2) b k).neighborhoods := by
  have hp := contribs_perm hr hs b k
  refine ⟨?_, ?_, ?_, ?_⟩
  · rw [gdOf_rent, gdOf_rent]
    exact hp.filterMap _
  · rw [gdOf_sale, gdOf_sale]
    exact hp.filterMap _
  · rw [gdOf_geo, gdOf_geo]
    exact hp.filterMap _
  · rw [gdOf_neigh, gdOf_neigh]
    exact (hp.map _).flatten

/-- The scored record depends only on the group statistics up to
permutation of each observation list. -/
theorem mkScored_eq_of_equiv {b : String} {k : Key} {d d2 : GroupData}
    (hrent : List.Perm d.rent d2.rent) (hsale : List.Perm d.sale d2.sale)
    (hgeo : List.Perm d.geoloc_points d2.geoloc_points)
    (hneigh : ∀ x, x ∈ d.neighborhoods ↔ x ∈ d2.neighborhoods) :
    mkScored b k d = mkScored b k d2 := by
  have hrs : d.rent.sum = d2.rent.sum := hrent.sum_eq
  have hrl : d.rent.length = d2.rent.length := hrent.length_eq
  have hss : d.sale.sum = d2.sale.sum := hsale.sum_eq
  have hsl : d.sale.length = d2.sale.length := hsale.length_eq
  have hgl : d.geoloc_points.length = d2.geoloc_points.length := hgeo.length_eq
  have hgf : (d.geoloc_points.map Prod.fst).sum = (d2.geoloc_points.map Prod.fst).sum :=
    (hgeo.map _).sum_eq
  have hgs : (d.geoloc_points.map Prod.snd).sum = (d2.geoloc_points.map Prod.snd).sum :=
    (hgeo.map _).sum_eq
  have hney : sortedNeighborhoods d.neighborhoods = sortedNeighborhoods d2.neighborhoods :=
    sortedNeighborhoods_eq_of_mem_iff hneigh
  cases hgp : d.geoloc_points with
  | nil =>
    have hgp2 : d2.geoloc_points = [] := by
      rw [← List.length_eq_zero, ← hgl, hgp]
      rfl
    simp [mkScored, hrs, hrl, hss, hsl, hney, hgp, hgp2]
  | cons p rest =>
    cases hgp2 : d2.geoloc_points with
    | nil =>
      rw [hgp, hgp2] at hgl
      simp at hgl
    | cons p2 rest2 =>
      rw [hgp] at hgf hgs hgl
      rw [hgp2] at hgf hgs hgl
      simp only [List.map_cons, List.sum_cons, List.length_cons] at hgf hgs hgl
      simp only [mkScored, hgp, hgp2]
      simp [hrs, hrl, hss, hsl, hney, hgf, hgs, hgl]

/-- The group keys of the flattened accumulator, in iteration order. -/
def keysList (bd : BuildingData) : List (String × Key) :=
  (flattenBD bd).map (fun e => (e.1, e.2.1))

theorem keysList_nodup {bd : BuildingData} (h : WFbd bd) : (keysList bd).Nodup := by
  rw [keysList, flattenBD, List.map_flatten, List.map_map, List.nodup_flatten]
  constructor
  · intro l hl
    rcases List.mem_map.mp hl with ⟨p, hp, rfl⟩
    have h1 : (List.map (fun e => (e.1, e.2.1)) ∘ fun p =>
        p.2.map fun q => (p.1, q.1, q.2)) p
        = (p.2.map Prod.fst).map (fun k => (p.1, k)) := by
      simp only [Function.comp, List.map_map]
      rfl
    rw [h1]
    refine (h.2 p hp).map ?_
    intro k1 k2 hk
    exact ((Prod.mk.injEq ..).mp hk).2
  · have hpair : List.Pairwise (fun p q :
        String × List (Key × GroupData) => p.1 ≠ q.1) bd := by
      have h1 := h.1
      rw [List.Nodup, List.pairwise_map] at h1
      exact h1
    rw [List.pairwise_map]
    refine hpair.imp ?_
    intro p q hpq a hap haq
    have hap1 : a.1 = p.1 := by
      rcases List.mem_map.mp hap with ⟨e, he, rfl⟩
      rcases List.mem_map.mp he with ⟨q1, _, rfl⟩
      rfl
    have haq1 : a.1 = q.1 := by
      rcases List.mem_map.mp haq with ⟨e, he, rfl⟩
      rcases List.mem_map.mp he with ⟨q2, _, rfl⟩
      rfl
    exact hpq (hap1 ▸ haq1)

theorem mem_keysList_iff (r s : List RawListing) (b : String) (k : Key) :
    (b, k) ∈ keysList (accum r s) ↔ contribs r (r ++ s) b k ≠ [] := by
  rw [keysList, List.mem_map]
  constructor
  · rintro ⟨⟨b1, k1, gd⟩, hmem, heq⟩
    simp only [Prod.mk.injEq] at heq
    obtain ⟨rfl, rfl⟩ := heq
    have hl := (lookupGroup_flattenBD (WFbd_accum r s)).mp hmem
    rw [lookupGroup_accum] at hl
    intro hc
    rw [if_pos hc] at hl
    cases hl
  · intro hc
    have hl : lookupGroup (accum r s) b k
        = some (applyContribs (contribs r (r ++ s) b k) emptyGD) := by
      rw [lookupGroup_accum, if_neg hc]
    exact ⟨(b, k, applyContribs (contribs r (r ++ s) b k) emptyGD),
      (lookupGroup_flattenBD (WFbd_accum r s)).mpr hl, rfl⟩

theorem flattenBD_eq_keysList_map (r s : List RawListing) :
    flattenBD (accum r s) = (keysList (accum r s)).map
      (fun p => (p.1, p.2, gdOf r (r ++ s) p.1 p.2)) := by
  rw [keysList, List.map_map]
  conv_lhs => rw [← List.map_id (flattenBD (accum r s))]
  refine (List.map_congr_left ?_).symm
  rintro ⟨b, k, gd⟩ he
  have hl := (lookupGroup_flattenBD (WFbd_accum r s)).mp he
  rw [lookupGroup_accum] at hl
  by_cases hc : contribs r (r ++ s) b k = []
  · rw [if_pos hc] at hl
    cases hl
  · rw [if_neg hc] at hl
    have hgd : gd = gdOf r (r ++ s) b k := (Option.some.inj hl).symm
    simp [Function.comp, hgd, gdOf]

theorem qualifiesB_congr {d d2 : GroupData} (hr : List.Perm d.rent d2.rent)
    (hs : List.Perm d.sale d2.sale) : qualifiesB d = qualifiesB d2 := by
  have h1 : (d.rent = []) ↔ (d2.rent = []) := by
    rw [← List.length_eq_zero, ← List.length_eq_zero, hr.length_eq]
  have h2 : (d.sale = []) ↔ (d2.sale = []) := by
    rw [← List.length_eq_zero, ← List.length_eq_zero, hs.length_eq]
  rw [qualifiesB, qualifiesB, decide_eq_decide.mpr (not_congr h1),
    decide_eq_decide.mpr (not_congr h2)]

theorem saleAvg_congr {d d2 : GroupData} (hs : List.Perm d.sale d2.sale) :
    d.sale.sum / (d.sale.length : ℚ) = d2.sale.sum / (d2.sale.length : ℚ) := by
  rw [hs.sum_eq, hs.length_eq]

/-- Two sorted-descending lists that are permutations of each other and
whose scores are pairwise distinct are equal. -/
theorem eq_of_perm_of_sorted_of_nodupW :
    ∀ (l1 l2 : List ScoredGroup), List.Perm l1 l2
      → List.Pairwise (fun g1 g2 => g2.weighted_roi ≤ g1.weighted_roi) l1
      → List.Pairwise (fun g1 g2 => g2.weighted_roi ≤ g1.weighted_roi) l2
      → (l1.map ScoredGroup.weighted_roi).Nodup → l1 = l2 := by
  intro l1
  induction l1 with
  | nil =>
    intro l2 hp _ _ _
    exact (hp.symm.eq_nil).symm
  | cons a t1 ih =>
    intro l2 hp hs1 hs2 hnd
    cases l2 with
    | nil => exact absurd hp.eq_nil (List.cons_ne_nil a t1)
    | cons b2 t2 =>
      rw [List.map_cons, List.nodup_cons] at hnd
      have hab : a = b2 := by
        have ha2 : a ∈ b2 :: t2 := hp.mem_iff.mp (List.mem_cons_self a t1)
        rcases List.mem_cons.mp ha2 with h1 | h1
        · exact h1
        · have hb1 : b2 ∈ a :: t1 := hp.symm.mem_iff.mp (List.mem_cons_self b2 t2)
          rcases List.mem_cons.mp hb1 with h2 | h2
          · exact h2.symm
          · have hw1 : b2.weighted_roi ≤ a.weighted_roi :=
              (List.pairwise_cons.mp hs1).1 b2 h2
            have hw2 : a.weighted_roi ≤ b2.weighted_roi :=
              (List.pairwise_cons.mp hs2).1 a h1
            have hww : a.weighted_roi = b2.weighted_roi := le_antisymm hw2 hw1
            exact absurd (List.mem_map.mpr ⟨b2, h2, hww.symm⟩) hnd.1
      subst hab
      rw [ih t2 hp.cons_inv (List.pairwise_cons.mp hs1).2
        (List.pairwise_cons.mp hs2).2 hnd.2]

/-- C5: permuting each kind-stream (the only reordering the code's
two-stream interface admits while each listing keeps its kind) leaves the
analysis result unchanged up to tie-breaking: the run still succeeds, the
output is a permutation of the original with identical per-group records,
and when no two emitted groups tie on weighted_roi the output sequences
are equal. -/
theorem C5_order_independence (r s r2 s2 : List RawListing) (out : List ScoredGroup)
    (hr : List.Perm r r2) (hs : List.Perm s s2)
    (h : analyze r s = Except.ok out) :
    ∃ out2, analyze r2 s2 = Except.ok out2 ∧ List.Perm out2 out
      ∧ ((out.map ScoredGroup.weighted_roi).Nodup → out2 = out) := by
  obtain ⟨pre, hsc, rfl⟩ := analyze_ok h
  rw [scoreAll_eq] at hsc
  by_cases hc : ∀ e ∈ flattenBD (accum r s), qualifiesB e.2.2
      → ¬ (e.2.2.sale.sum / ((e.2.2.sale.length : ℚ)) = 0)
  swap
  · rw [if_neg hc] at hsc
    cases hsc
  rw [if_pos hc] at hsc
  have hpre : pre = ((flattenBD (accum r s)).filter (fun e => qualifiesB e.2.2)).map
      (fun e => mkScored e.1 e.2.1 e.2.2) := (Except.ok.inj hsc).symm
  have hgd := fun b k => gdOf_equiv hr hs b k
  have hmkeq : ∀ b k, mkScored b k (gdOf r (r ++ s) b k)
      = mkScored b k (gdOf r2 (r2 ++ s2) b k) := by
    intro b k
    obtain ⟨h1, h2, h3, h4⟩ := hgd b k
    exact mkScored_eq_of_equiv h1 h2 h3 (fun x => h4.mem_iff)
  have hqeq : ∀ b k, qualifiesB (gdOf r (r ++ s) b k)
      = qualifiesB (gdOf r2 (r2 ++ s2) b k) := by
    intro b k
    obtain ⟨h1, h2, _, _⟩ := hgd b k
    exact qualifiesB_congr h1 h2
  have hzeq : ∀ b k, (gdOf r (r ++ s) b k).sale.sum / (((gdOf r (r ++ s) b k).sale.length : ℚ))
      = (gdOf r2 (r2 ++ s2) b k).sale.sum / (((gdOf r2 (r2 ++ s2) b k).sale.length : ℚ)) := by
    intro b k
    obtain ⟨_, h2, _, _⟩ := hgd b k
    exact saleAvg_congr h2
  have hKmem : ∀ p : String × Key, p ∈ keysList (accum r s) ↔ p ∈ keysList (accum r2 s2) := by
    rintro ⟨b, k⟩
    rw [mem_keysList_iff, mem_keysList_iff]
    have hcp := contribs_perm hr hs b k
    constructor
    · intro h1 h2
      rw [h2] at hcp
      exact h1 hcp.eq_nil
    · intro h1 h2
      rw [h2] at hcp
      exact h1 hcp.symm.eq_nil
  have hKperm : List.Perm (keysList (accum r s)) (keysList (accum r2 s2)) :=
    (List.perm_ext_iff_of_nodup (keysList_nodup (WFbd_accum r s))
      (keysList_nodup (WFbd_accum r2 s2))).mpr hKmem
  have hc2 : ∀ e ∈ flattenBD (accum r2 s2), qualifiesB e.2.2
      → ¬ (e.2.2.sale.sum / ((e.2.2.sale.length : ℚ)) = 0) := by
    rw [flattenBD_eq_keysList_map r2 s2]
    intro e he
    rcases List.mem_map.mp he with ⟨⟨b, k⟩, hpmem, rfl⟩
    have hpmem1 : (b, k) ∈ keysList (accum r s) := (hKmem (b, k)).mpr hpmem
    have he1 : (b, k, gdOf r (r ++ s) b k) ∈ flattenBD (accum r s) := by
      rw [flattenBD_eq_keysList_map r s]
      exact List.mem_map.mpr ⟨(b, k), hpmem1, rfl⟩
    have h1 := hc _ he1
    simp only at h1 ⊢
    rw [← hqeq b k, ← hzeq b k]
    exact h1
  have hsc2 : scoreAll (flattenBD (accum r2 s2))
      = Except.ok (((flattenBD (accum r2 s2)).filter (fun e => qualifiesB e.2.2)).map
        (fun e => mkScored e.1 e.2.1 e.2.2)) := by
    rw [scoreAll_eq, if_pos hc2]
  have hout2 : analyze r2 s2 = Except.ok (sortByW
      (((flattenBD (accum r2 s2)).filter (fun e => qualifiesB e.2.2)).map
        (fun e => mkScored e.1 e.2.1 e.2.2))) := by
    rw [analyze]
    rw [hsc2]
    rfl
  have hpre2perm : List.Perm
      (((flattenBD (accum r2 s2)).filter (fun e => qualifiesB e.2.2)).map
        (fun e => mkScored e.1 e.2.1 e.2.2)) pre := by
    rw [hpre, flattenBD_eq_keysList_map r s, flattenBD_eq_keysList_map r2 s2]
    rw [List.filter_map, List.filter_map, List.map_map, List.map_map]
    have hf2 : ((fun e : String × Key × GroupData => qualifiesB e.2.2) ∘
          fun p : String × Key => (p.1, p.2, gdOf r2 (r2 ++ s2) p.1 p.2))
        = ((fun e : String × Key × GroupData => qualifiesB e.2.2) ∘
          fun p : String × Key => (p.1, p.2, gdOf r (r ++ s) p.1 p.2)) := by
      funext p
      exact (hqeq p.1 p.2).symm
    have hg2 : ((fun e : String × Key × GroupData => mkScored e.1 e.2.1 e.2.2) ∘
          fun p : String × Key => (p.1, p.2, gdOf r2 (r2 ++ s2) p.1 p.2))
        = ((fun e : String × Key × GroupData => mkScored e.1 e.2.1 e.2.2) ∘
          fun p : String × Key => (p.1, p.2, gdOf r (r ++ s) p.1 p.2)) := by
      funext p
      exact (hmkeq p.1 p.2).symm
    rw [hf2, hg2]
    exact (hKperm.symm.filter _).map _
  refine ⟨_, hout2, ?_, ?_⟩
  · exact (sortByW_perm _).trans (hpre2perm.trans (sortByW_perm pre).symm)
  · intro hnd
    exact eq_of_perm_of_sorted_of_nodupW _ _
      ((sortByW_perm _).trans (hpre2perm.trans (sortByW_perm pre).symm))
      (sortByW_pairwise _) (sortByW_pairwise _) (by
        have hp2 : List.Perm ((sortByW (((flattenBD (accum r2 s2)).filter
            (fun e => qualifiesB e.2.2)).map (fun e => mkScored e.1 e.2.1 e.2.2))).map
              ScoredGroup.weighted_roi)
            ((sortByW pre).map ScoredGroup.weighted_roi) :=
          ((sortByW_perm _).trans (hpre2perm.trans (sortByW_perm pre).symm)).map _
        exact hp2.nodup_iff.mpr hnd)

/-- C5 witness: reversing both streams of the ROI-formula scenario yields
the same single-group output. -/
theorem C5_witness :
    List.Perm rentC3 [mkL "A" 1 1 650 1200, mkL "A" 1 1 650 1000]
    ∧ List.Perm saleC3 [mkL "A" 1 1 650 120000, mkL "A" 1 1 650 100000]
    ∧ analyze rentC3 saleC3 = Except.ok [gC3]
    ∧ (∃ out2, analyze [mkL "A" 1 1 650 1200, mkL "A" 1 1 650 1000]
          [mkL "A" 1 1 650 120000, mkL "A" 1 1 650 100000] = Except.ok out2
        ∧ List.Perm out2 [gC3]
        ∧ (([gC3].map ScoredGroup.weighted_roi).Nodup → out2 = [gC3])) := by
  have hr : List.Perm rentC3 [mkL "A" 1 1 650 1200, mkL "A" 1 1 650 1000] := by decide
  have hs : List.Perm saleC3 [mkL "A" 1 1 650 120000, mkL "A" 1 1 650 100000] := by decide
  have hok : analyze rentC3 saleC3 = Except.ok [gC3] := by
    norm_num [analyze, accum, processItem, normKey, updateAssoc, lookupA, addObs, emptyGD,
      flattenBD, scoreAll, scoreEntry, qualifiesB, mkScored, sortByW, insertByW,
      sortedNeighborhoods, sizeRangeStr, Bind.bind, Except.bind, mkL, rentC3, saleC3,
      List.dedup, List.insertionSort, gC3]
    decide
  exact ⟨hr, hs, hok, C5_order_independence _ _ _ _ _ hr hs hok⟩

end Dubai
